import Mathlib

/-!
Verification of the native engine of the spcmic 84-channel recorder.

Each C++ component relevant to the checked claims is shallowly embedded:
pure functions become Lean functions, machine integers become `Nat`/`Int`
with explicit wrap-around where the C++ type wraps, byte buffers become
`List Nat` (each element a byte value) or `Nat → Nat` stores, and the
stateful loops become explicit state-passing functions that are folded
over the sequence of inputs the thread would observe.
-/

/-! ## LockFreeRingBuffer (lock_free_ring_buffer.h)

The SPSC byte queue.  `m_buffer` is modelled as a total function
`Nat → Nat` (only indices below `capacity` are ever used), the two
indices as plain `Nat`.  `memcpy` into the buffer becomes `memcpyAt`.
-/

structure RingState where
  capacity : Nat
  buf : Nat → Nat
  writeIndex : Nat
  readIndex : Nat

/-- Mirrors `LockFreeRingBuffer::getAvailableRead`:
`if (writeIdx >= readIdx) writeIdx - readIdx else capacity - readIdx + writeIdx`. -/
def availableRead (capacity writeIdx readIdx : Nat) : Nat :=
  if writeIdx ≥ readIdx then writeIdx - readIdx else capacity - readIdx + writeIdx

/-- Mirrors `LockFreeRingBuffer::getAvailableWrite`: one byte is reserved
to distinguish full from empty (`capacity - used - 1`, size_t subtraction). -/
def availableWrite (capacity writeIdx readIdx : Nat) : Nat :=
  capacity - availableRead capacity writeIdx readIdx - 1

/-- Model of `memcpy(buf + dst, data, data.length)`: bytes of `data` land at
positions `dst, dst+1, …`, every other position keeps its old value. -/
def memcpyAt (buf : Nat → Nat) (dst : Nat) (data : List Nat) : Nat → Nat :=
  fun j => if dst ≤ j ∧ j < dst + data.length then data.getD (j - dst) 0 else buf j

/-- Mirrors `LockFreeRingBuffer::write`: copy `min size available` bytes in up
to two chunks around the wrap point, then advance the write index modulo the
capacity.  Returns the new state and the number of bytes accepted. -/
def ringWrite (s : RingState) (data : List Nat) : RingState × Nat :=
  if data.length = 0 then (s, 0) else
  let writeIdx := s.writeIndex
  let readIdx := s.readIndex
  let available := availableWrite s.capacity writeIdx readIdx
  let toWrite := min data.length available
  if toWrite = 0 then (s, 0) else
  let firstChunk := min toWrite (s.capacity - writeIdx)
  let buf1 := memcpyAt s.buf writeIdx (data.take firstChunk)
  let buf2 :=
    if firstChunk < toWrite then
      memcpyAt buf1 0 ((data.take toWrite).drop firstChunk)
    else buf1
  ({ s with buf := buf2, writeIndex := (writeIdx + toWrite) % s.capacity }, toWrite)

/-- Mirrors `LockFreeRingBuffer::read`: copy `min size available` bytes in up
to two chunks, then advance the read index modulo the capacity.  Returns the
new state and the bytes delivered to the caller. -/
def ringRead (s : RingState) (n : Nat) : RingState × List Nat :=
  if n = 0 then (s, []) else
  let readIdx := s.readIndex
  let available := availableRead s.capacity s.writeIndex readIdx
  let toRead := min n available
  if toRead = 0 then (s, []) else
  let firstChunk := min toRead (s.capacity - readIdx)
  let out1 := (List.range firstChunk).map (fun i => s.buf (readIdx + i))
  let out2 := (List.range (toRead - firstChunk)).map (fun i => s.buf i)
  ({ s with readIndex := (readIdx + toRead) % s.capacity }, out1 ++ out2)

/-- The freshly constructed buffer: both indices zero, memory zeroed. -/
def mkRing (capacity : Nat) : RingState :=
  { capacity := capacity, buf := fun _ => 0, writeIndex := 0, readIndex := 0 }

/-- Well-formedness maintained by every operation: positive capacity and both
indices strictly below it (the constructor establishes it, `% capacity`
preserves it). -/
def RingWF (s : RingState) : Prop :=
  0 < s.capacity ∧ s.writeIndex < s.capacity ∧ s.readIndex < s.capacity

/-- Abstraction to a FIFO: the queued bytes, oldest first, read off the
circular storage between the read index and the write index. -/
def ringContents (s : RingState) : List Nat :=
  (List.range (availableRead s.capacity s.writeIndex s.readIndex)).map
    (fun i => s.buf ((s.readIndex + i) % s.capacity))

/-- One producer/consumer operation on the ring. -/
inductive RingOp where
  | write (data : List Nat)
  | read (n : Nat)

/-- Accumulated trace: current state, concatenation of the bytes every
`write` call accepted, concatenation of the bytes every `read` call
returned to the consumer. -/
structure RingRun where
  st : RingState
  accepted : List Nat
  readOut : List Nat

/-- Trace starting point: a freshly constructed buffer. -/
def initRun (capacity : Nat) : RingRun :=
  { st := mkRing capacity, accepted := [], readOut := [] }

/-- Execute one operation, extending the trace records. -/
def runOp (rr : RingRun) (op : RingOp) : RingRun :=
  match op with
  | RingOp.write data =>
      let res := ringWrite rr.st data
      { st := res.1, accepted := rr.accepted ++ data.take res.2, readOut := rr.readOut }
  | RingOp.read n =>
      let res := ringRead rr.st n
      { st := res.1, accepted := rr.accepted, readOut := rr.readOut ++ res.2 }

/-- Execute a sequence of operations on a freshly constructed buffer. -/
def runOps (capacity : Nat) (ops : List RingOp) : RingRun :=
  ops.foldl runOp (initRun capacity)

/-- Trace invariant: well-formed state, stable capacity, and the not yet
consumed suffix of the accepted bytes is exactly what is still queued. -/
def RunInv (capacity : Nat) (rr : RingRun) : Prop :=
  RingWF rr.st ∧ rr.st.capacity = capacity ∧
  rr.readOut ++ ringContents rr.st = rr.accepted


/-! ## WAVWriter (wav_writer.cpp)

The writer file is modelled as the list of bytes written so far; the cursor
is at the end of the file while audio data is appended, matching the use in
the recorder (header written once, then only `writeData` appends, then
`close` calls `updateHeader`).  `fseeko`+`fwrite` patching becomes
`patchBytes`.  `m_dataSize` is a C++ `uint64_t`, hence the `% 2^64`.
-/

/-- FourCC tags are written with `fwrite(fourcc, 1, 4, ...)`. -/
def fourCC (s : String) : List Nat := s.toList.map Char.toNat

/-- Mirrors `WAVWriter::writeUint16`. -/
def u16le (v : Nat) : List Nat := [v &&& 0xFF, (v >>> 8) &&& 0xFF]

/-- Mirrors `WAVWriter::writeUint32`. -/
def u32le (v : Nat) : List Nat :=
  [v &&& 0xFF, (v >>> 8) &&& 0xFF, (v >>> 16) &&& 0xFF, (v >>> 24) &&& 0xFF]

/-- Mirrors `WAVWriter::writeUint64` (loop over the eight bytes unrolled). -/
def u64le (v : Nat) : List Nat :=
  [v &&& 0xFF, (v >>> 8) &&& 0xFF, (v >>> 16) &&& 0xFF, (v >>> 24) &&& 0xFF,
   (v >>> 32) &&& 0xFF, (v >>> 40) &&& 0xFF, (v >>> 48) &&& 0xFF, (v >>> 56) &&& 0xFF]

/-- Modelled from the spec: `DS64_CHUNK_SIZE` is declared in a writer header
that is missing from `src/` (the checked-in `wav_writer.h` is an older
revision without the RF64 members used by `wav_writer.cpp`).  The spec fixes
the reserved `JUNK`/`ds64` body at 28 bytes
(`"ds64" u32:28 u64:riff u64:data u64:samples u32:0`). -/
def DS64_CHUNK_SIZE : Nat := 28

/-- Modelled from the spec: `MAX_UINT32` likewise comes from the missing
header; the spec writes the RF64 size placeholders as `0xFFFFFFFF`. -/
def MAX_UINT32 : Nat := 0xFFFFFFFF

/-- State of an open writer (fields mirror the `WAVWriter` members used by
`updateHeader`; positions are recorded with `ftello` at header-write time). -/
structure WavWriterState where
  file : List Nat
  dataSize : Nat
  blockAlign : Nat
  ds64ChunkPos : Nat
  ds64SizePos : Nat
  ds64DataPos : Nat
  dataSizePos : Nat

/-- The 16-byte-body PCM `fmt ` chunk written by `WAVWriter::writeHeader`
(audio format 1, then channel count, rates, block align, bit depth; the
`static_cast`s to the field widths become `% 2^16` / `% 2^32`). -/
def wavFmtChunk (sampleRate channels bitsPerSample : Nat) : List Nat :=
  fourCC "fmt " ++ u32le 16 ++ u16le 1 ++ u16le (channels % 2 ^ 16)
    ++ u32le (sampleRate % 2 ^ 32)
    ++ u32le (sampleRate * (channels * (bitsPerSample / 8)) % 2 ^ 32)
    ++ u16le (channels * (bitsPerSample / 8) % 2 ^ 16)
    ++ u16le (bitsPerSample % 2 ^ 16)

/-- Mirrors `WAVWriter::writeHeader` after `initializeFormat(sampleRate,
channels, bitsPerSample)`: RIFF header, 28-byte `JUNK` reservation, 16-byte
PCM `fmt ` chunk, `data` header with a 32-bit size placeholder.  The chunk
positions are recorded with `ftello`, i.e. as the length written so far. -/
def wavWriteHeader (sampleRate channels bitsPerSample : Nat) : WavWriterState :=
  let blockAlign := channels * (bitsPerSample / 8)
  let f0 : List Nat := fourCC "RIFF" ++ u32le 0 ++ fourCC "WAVE"
  let ds64ChunkPos := f0.length
  let f1 := f0 ++ fourCC "JUNK"
  let ds64SizePos := f1.length
  let f2 := f1 ++ u32le DS64_CHUNK_SIZE
  let ds64DataPos := f2.length
  let f3 := f2 ++ List.replicate DS64_CHUNK_SIZE 0
  let f4 := f3 ++ wavFmtChunk sampleRate channels bitsPerSample ++ fourCC "data"
  let dataSizePos := f4.length
  let f5 := f4 ++ u32le 0
  { file := f5, dataSize := 0, blockAlign := blockAlign,
    ds64ChunkPos := ds64ChunkPos, ds64SizePos := ds64SizePos,
    ds64DataPos := ds64DataPos, dataSizePos := dataSizePos }

/-- Mirrors `WAVWriter::writeData`: append and count (`m_dataSize` is
`uint64_t`). -/
def wavWriteData (st : WavWriterState) (data : List Nat) : WavWriterState :=
  { st with file := st.file ++ data,
            dataSize := (st.dataSize + data.length) % 2 ^ 64 }

/-- In-place overwrite at a byte offset (one `fseeko` followed by writes). -/
def patchBytes (file : List Nat) (pos : Nat) (bytes : List Nat) : List Nat :=
  file.take pos ++ bytes ++ file.drop (pos + bytes.length)

/-- Mirrors `WAVWriter::updateHeader` (called from `close` with the cursor at
the end of the file).  Returns the finalized file bytes. -/
def wavUpdateHeader (st : WavWriterState) : List Nat :=
  let currentPos := st.file.length
  let fileSize := currentPos
  let riffSize64 := if fileSize ≥ 8 then fileSize - 8 else 0
  let sampleFrames := if st.blockAlign > 0 then st.dataSize / st.blockAlign else 0
  if st.dataSize > MAX_UINT32 ∨ riffSize64 > MAX_UINT32 then
    let f1 := patchBytes st.file 0 (fourCC "RF64" ++ u32le (MAX_UINT32 % 2 ^ 32))
    let f2 := patchBytes f1 st.ds64ChunkPos
      (fourCC "ds64" ++ u32le (DS64_CHUNK_SIZE % 2 ^ 32) ++ u64le (riffSize64 % 2 ^ 64)
        ++ u64le (st.dataSize % 2 ^ 64) ++ u64le (sampleFrames % 2 ^ 64)
        ++ u32le (0 % 2 ^ 32))
    patchBytes f2 st.dataSizePos (u32le (MAX_UINT32 % 2 ^ 32))
  else
    let f1 := patchBytes st.file 4 (u32le (riffSize64 % 2 ^ 32))
    patchBytes f1 st.dataSizePos (u32le (st.dataSize % 2 ^ 32))

/-- Little-endian read-back of `len` bytes at offset `pos` (used to state
what the finalized header fields contain). -/
def readLE (file : List Nat) (pos len : Nat) : Nat :=
  match len with
  | 0 => 0
  | Nat.succ n => file.getD pos 0 + 256 * readLE file (pos + 1) n


/-! ## UacCapture stuck-URB watchdog (usb_audio_interface.cpp)

`handleCompletedUrb` runs once per successfully reaped URB inside
`readAudioData`; `m_reapAttemptCount` was already incremented by
`reapCompletions` for this ioctl before the handler runs.  URB pointers are
modelled as `Nat` with `0` for `nullptr`.  Only the fields read or written
by the watchdog are modelled; `resetStreamingState` clears them all and
clears `m_wasStreaming`, which is what makes the next `readAudioData` call
rebuild the URB ring.
-/

def STUCK_URB_THRESHOLD : Nat := 50

def CHECK_INTERVAL : Nat := 100

structure UrbWatchdogState where
  lastReapedUrbAddress : Nat
  consecutiveSameUrbCount : Nat
  stuckUrbDetected : Bool
  reapAttemptCount : Nat
  wasStreaming : Bool

/-- The watchdog-relevant effect of `resetStreamingState` (also performed
right after `releaseUrbResources` in the stuck-pattern branch). -/
def resetStreamingStateW : UrbWatchdogState :=
  { lastReapedUrbAddress := 0, consecutiveSameUrbCount := 0,
    stuckUrbDetected := false, reapAttemptCount := 0, wasStreaming := false }

/-- Watchdog state when streaming has just been (re)initialized
(`readAudioData` sets `m_wasStreaming = true` after `ensureUrbResources`). -/
def streamingStartState : UrbWatchdogState :=
  { resetStreamingStateW with wasStreaming := true }

/-- One successful reap as seen by the watchdog in `handleCompletedUrb`.

The comparison `m_consecutiveSameUrbCount >= (CHECK_INTERVAL * 0.8)` is an
`int`-to-`double` comparison against `100 * 0.8`, which rounds to exactly
`80.0`, so it is `count ≥ 80`.  Returns the new state and `resetTriggered`:
on the stuck pattern the code cancels every URB (`USBDEVFS_DISCARDURB`),
calls `releaseUrbResources` and `resetStreamingState`, and returns. -/
def handleCompletedUrbWatchdog (st : UrbWatchdogState) (urb : Nat) :
    UrbWatchdogState × Bool :=
  let st1 := { st with reapAttemptCount := st.reapAttemptCount + 1 }
  let st2 :=
    if urb = st1.lastReapedUrbAddress then
      { st1 with consecutiveSameUrbCount := st1.consecutiveSameUrbCount + 1 }
    else
      { st1 with
          stuckUrbDetected := st1.stuckUrbDetected
            || decide (st1.consecutiveSameUrbCount ≥ STUCK_URB_THRESHOLD),
          consecutiveSameUrbCount := 1,
          lastReapedUrbAddress := urb }
  if st2.reapAttemptCount % CHECK_INTERVAL = 0 ∧ st2.reapAttemptCount > 0 then
    if st2.consecutiveSameUrbCount ≥ 80 ∧ st2.reapAttemptCount > 100 then
      (resetStreamingStateW, true)
    else (st2, false)
  else (st2, false)

/-- A run of successful reaps; the reap loop stops once a reset triggers
(`if (resetTriggered) break`). -/
def runReaps (st : UrbWatchdogState) (urbs : List Nat) : UrbWatchdogState × Bool :=
  urbs.foldl (fun acc urb =>
    if acc.2 then acc
    else handleCompletedUrbWatchdog acc.1 urb) (st, false)


/-! ## MultichannelRecorder (multichannel_recorder.cpp)

The staging buffer is a `List Nat` of byte values.  `m_gainLinear` is a
`float`; the per-sample arithmetic is modelled over exact rationals (the
structure of the pass — sign-extension, multiply, clamp, clip flag,
requantization — is what the claims are about; float rounding is abstracted
as exact arithmetic).  `std::atomic` fields become plain record fields, with
each thread loop an explicit fold.
-/

def CHANNEL_COUNT : Nat := 84

def BYTES_PER_SAMPLE : Nat := 3

def RING_BUFFER_SIZE : Nat := 4 * 1024 * 1024

/-- Mirrors `extract24BitSample`: `(data[0]) | (data[1] << 8) | (data[2] << 16)`,
then `sample |= 0xFF000000` when bit 23 is set; on `int32_t` that OR makes the
value `sample - 2^24`. -/
def extract24BitSample (b0 b1 b2 : Nat) : Int :=
  let sample : Nat := b0 ||| b1 <<< 8 ||| b2 <<< 16
  if sample &&& 0x800000 ≠ 0 then (sample : Int) - 2 ^ 24 else (sample : Int)

/-- `std::clamp(v, lo, hi)`: `v < lo ? lo : hi < v ? hi : v`. -/
def stdClamp (v lo hi : ℚ) : ℚ :=
  if v < lo then lo else if hi < v then hi else v

/-- Truncation toward zero: the semantics of `static_cast<int32_t>` on a
floating value that is within the `int32_t` range. -/
def ratTrunc (q : ℚ) : Int := if 0 ≤ q then ⌊q⌋ else ⌈q⌉

/-- The three bytes the pass stores back: `quantizedSample & 0xFF`,
`(quantizedSample >> 8) & 0xFF`, `(quantizedSample >> 16) & 0xFF` on
`int32_t`.  For `v` in the clamped range these are the bytes of the
two's-complement pattern, i.e. of `v mod 2^24`. -/
def int24Bytes (v : Int) : Nat × Nat × Nat :=
  let u := (v % 2 ^ 24).toNat
  (u % 256, u / 256 % 256, u / 65536 % 256)

/-- One sample of `processAudioBuffer`'s inner loop: extract and sign-extend,
multiply by the current gain, detect clipping at the 24-bit bounds, and — only
when the gain is not exactly 1 or the sample clipped — clamp, truncate and
store the bytes back in place. -/
def processSample (gain : ℚ) (b0 b1 b2 : Nat) : (Nat × Nat × Nat) × Bool :=
  let sample := extract24BitSample b0 b1 b2
  let MAX_24BIT : ℚ := 8388607
  let MIN_24BIT : ℚ := -8388608
  let processedSample : ℚ := (sample : ℚ) * gain
  let clippedAfterGain : Bool :=
    decide (processedSample ≥ MAX_24BIT) || decide (processedSample ≤ MIN_24BIT)
  if gain ≠ 1 ∨ clippedAfterGain = true then
    let clampedSample := stdClamp processedSample MIN_24BIT MAX_24BIT
    let quantizedSample := ratTrunc clampedSample
    (int24Bytes quantizedSample, clippedAfterGain)
  else ((b0, b1, b2), clippedAfterGain)

/-- Process `n` consecutive 3-byte samples at the head of the buffer,
or-accumulating the clip flags (the code walks frames and channels at
offsets `frame * 252 + ch * 3`, which visits exactly these groups). -/
def processSamples (gain : ℚ) : Nat → List Nat → List Nat × Bool
  | 0, rest => (rest, false)
  | n + 1, b0 :: b1 :: b2 :: rest =>
      let r := processSample gain b0 b1 b2
      let rr := processSamples gain n rest
      (r.1.1 :: r.1.2.1 :: r.1.2.2 :: rr.1, r.2 || rr.2)
  | _ + 1, rest => (rest, false)

/-- The gain/metering pass over one staging buffer: `numFrames = size / 252`
complete frames of 84 samples are processed in place, a trailing partial
frame is untouched.  Returns the new bytes and whether any sample clipped
(or-accumulated into the `m_clipDetected` atomic by the code). -/
def processAudioBuffer (gain : ℚ) (buffer : List Nat) : List Nat × Bool :=
  let numFrames := buffer.length / (CHANNEL_COUNT * BYTES_PER_SAMPLE)
  processSamples gain (numFrames * CHANNEL_COUNT) buffer

/-- The dB clamp of `setGain`: `std::max(0.0f, std::min(64.0f, gainDb))`. -/
def clampGainDb (gainDb : ℚ) : ℚ := max 0 (min 64 gainDb)

/-- Mirrors `setGain`: the stored target is `std::pow(10, gainDb / 20)` of
the clamped dB value (exact real power of the exact rational). -/
noncomputable def setGainTarget (gainDb : ℚ) : ℝ :=
  (10 : ℝ) ^ ((max 0 (min 64 gainDb) : ℚ) / 20 : ℝ)

/-- State threaded through the USB-reader loop of `recordingThreadFunction`
while recording: the disk ring, the `m_totalSamples` counter, and byte/event
accounting (`ringOffered` sums the `bytesRead` handed to `ring.write`,
`ringAccepted` sums the write return values, `bufferOverflows` counts short
writes as the code does). -/
structure RecState where
  ring : RingState
  totalSamples : Nat
  ringAccepted : Nat
  ringOffered : Nat
  bufferOverflows : Nat

def initRecState : RecState :=
  { ring := mkRing RING_BUFFER_SIZE, totalSamples := 0, ringAccepted := 0,
    ringOffered := 0, bufferOverflows := 0 }

/-- One loop iteration of `recordingThreadFunction` with `m_isRecording`
set, on a nonzero USB read of `readChunk` bytes: run the gain pass in place,
add `bytesRead / (84*3)` to `m_totalSamples`, push the whole staging buffer
into the ring, and count an overflow when the write is short. -/
def recorderStep (gain : ℚ) (st : RecState) (readChunk : List Nat) : RecState :=
  if readChunk.length > 0 then
    let processed := (processAudioBuffer gain readChunk).1
    let samplesInBuffer := readChunk.length / (CHANNEL_COUNT * BYTES_PER_SAMPLE)
    let res := ringWrite st.ring processed
    { ring := res.1,
      totalSamples := st.totalSamples + samplesInBuffer,
      ringAccepted := st.ringAccepted + res.2,
      ringOffered := st.ringOffered + readChunk.length,
      bufferOverflows :=
        if res.2 < readChunk.length then st.bufferOverflows + 1
        else st.bufferOverflows }
  else st

/-- Controller-visible recorder state for the `startRecording` path. -/
structure RecorderCtl where
  isMonitoring : Bool
  isRecording : Bool
  wavWriterOpen : Bool
  ringAllocated : Bool
  diskThreadRunning : Bool
  totalSamples : Nat

/-- Mirrors `startRecordingFromMonitoring`: rejected unless monitoring and
not recording; `openSucceeds` abstracts whether `WAVWriter::open` succeeds
(on failure the writer is deleted again and nothing else changes). -/
def startRecordingFromMonitoring (st : RecorderCtl) (openSucceeds : Bool) :
    RecorderCtl × Bool :=
  if !st.isMonitoring || st.isRecording then (st, false)
  else if !openSucceeds then (st, false)
  else
    ({ st with
        wavWriterOpen := true
        ringAllocated := true
        diskThreadRunning := true
        totalSamples := 0
        isRecording := true }, true)

/-- Mirrors `startRecording`: reject with `false` when not monitoring
(IDLE→MONITORING→RECORDING flow enforced), otherwise delegate. -/
def startRecording (st : RecorderCtl) (openSucceeds : Bool) : RecorderCtl × Bool :=
  if !st.isMonitoring then (st, false)
  else startRecordingFromMonitoring st openSucceeds


/-! ## MatrixConvolver (matrix_convolver.cpp, fft_engine.cpp, ir_data.h)

Only the configuration arithmetic is modelled (the claims are about
`configure`); float IR samples are carried as rationals, C++ `int` fields as
`Int`.
-/

/-- Mirrors `MatrixImpulseResponse` (ir_data.h). -/
structure MatrixImpulseResponse where
  sampleRate : Int
  irLength : Int
  numInputChannels : Int
  numOutputChannels : Int
  impulseData : List ℚ

/-- Mirrors `MatrixImpulseResponse::isValid`: positive dimensions and the
flat data array of exactly `out × in × len` samples. -/
def MatrixImpulseResponse.isValid (ir : MatrixImpulseResponse) : Prop :=
  0 < ir.sampleRate ∧ 0 < ir.irLength ∧
  0 < ir.numInputChannels ∧ 0 < ir.numOutputChannels ∧
  ir.impulseData.length
    = ir.numOutputChannels.toNat * ir.numInputChannels.toNat * ir.irLength.toNat

instance (ir : MatrixImpulseResponse) : Decidable ir.isValid := by
  unfold MatrixImpulseResponse.isValid
  infer_instance

/-- Mirrors `FftEngine::isPowerOfTwo`: `n != 0 && (n & (n - 1)) == 0`. -/
def isPowerOfTwo (n : Nat) : Bool :=
  n != 0 && (n &&& (n - 1)) == 0

/-- The outcome of `MatrixConvolver::configure`: the returned flag and the
derived members (`ready_`, `blockSize_`, `fftSize_`, `numPartitions_`,
`numOutputChannels_`). -/
structure ConvolverConfig where
  ready : Bool
  blockSize : Int
  fftSize : Int
  numPartitions : Int
  numOutputChannels : Int

/-- Mirrors `MatrixConvolver::configure` (matrix_convolver.cpp:148-235).
Checks run in source order: null/invalid IR or non-positive block size clear
everything; then zero output channels, non-power-of-two block size (the
`static_cast<size_t>` on the already-positive block size is `Int.toNat`),
and a non-positive partition count each leave the convolver not ready.
`numPartitions_ = (irLength + blockSize_ - 1) / blockSize_` divides two
positive ints, where C++ truncating division agrees with Lean `/`. -/
def MatrixConvolver_configure (ir : Option MatrixImpulseResponse)
    (blockSizeFrames : Int) : ConvolverConfig :=
  match ir with
  | none => ⟨false, 0, 0, 0, 0⟩
  | some ir =>
    if ¬ ir.isValid ∨ blockSizeFrames ≤ 0 then ⟨false, 0, 0, 0, 0⟩
    else if ir.numOutputChannels ≤ 0 then
      ⟨false, blockSizeFrames, 0, 0, ir.numOutputChannels⟩
    else if ¬ (isPowerOfTwo blockSizeFrames.toNat = true) then
      ⟨false, blockSizeFrames, 0, 0, ir.numOutputChannels⟩
    else
      let fftSize := blockSizeFrames * 2
      let numPartitions := (ir.irLength + blockSizeFrames - 1) / blockSizeFrames
      if numPartitions ≤ 0 then
        ⟨false, blockSizeFrames, fftSize, numPartitions, ir.numOutputChannels⟩
      else ⟨true, blockSizeFrames, fftSize, numPartitions, ir.numOutputChannels⟩

/-! ## PlaybackEngine impulse-response loading (playback_engine.cpp) -/

def BUFFER_FRAMES : Nat := 4096

/-- `kMaxPartitions` in `loadImpulseResponse` ("TEMP: keep IR within single
FFT partition for performance"). -/
def kMaxPartitions : Nat := 1

/-- Mirrors the trim block of `loadImpulseResponse`: when the loaded IR is
longer than `maxIrLength = BUFFER_FRAMES * kMaxPartitions`, keep only the
first `maxIrLength` samples of every (out, in) pair and shrink `irLength`.
The nested copy loops write `trimmed[pair * maxIrLength + j] =
impulseData[pair * irLength + j]` for each pair index
`pair = outCh * numInputs + inCh` and `j < maxIrLength`, which is the flat
indexing used here. -/
def trimImpulseResponse (ir : MatrixImpulseResponse) : MatrixImpulseResponse :=
  let maxIrLength : Int := (BUFFER_FRAMES * kMaxPartitions : Nat)
  if ir.irLength > maxIrLength then
    { ir with
        irLength := maxIrLength
        impulseData :=
          (List.range (ir.numOutputChannels.toNat * ir.numInputChannels.toNat
              * maxIrLength.toNat)).map (fun idx =>
            ir.impulseData.getD
              (idx / maxIrLength.toNat * ir.irLength.toNat + idx % maxIrLength.toNat) 0) }
  else ir

/-- The configure call the engine then makes:
`matrixConvolver_.configure(&impulseResponse_, BUFFER_FRAMES)` on the
(possibly trimmed) IR. -/
def loadImpulseResponseConfigure (ir : MatrixImpulseResponse) : ConvolverConfig :=
  MatrixConvolver_configure (some (trimImpulseResponse ir)) (BUFFER_FRAMES : Nat)

/-! ## WavFileReader (playback/wav_file_reader.cpp)

Per-sample conversion of `WavFileReader::read`; a sample is its raw
little-endian bytes.  `reinterpret_cast<int16_t*>` / `int32_t*` reads become
sign-extended little-endian decodes.
-/

/-- Two little-endian bytes as an `int16_t`. -/
def decodeInt16LE (b0 b1 : Nat) : Int :=
  let u := b0 + b1 * 256
  if 2 ^ 15 ≤ u then (u : Int) - 2 ^ 16 else (u : Int)

/-- Four little-endian bytes as an `int32_t`. -/
def decodeInt32LE (b0 b1 b2 b3 : Nat) : Int :=
  let u := b0 + b1 * 256 + b2 * 65536 + b3 * 16777216
  if 2 ^ 31 ≤ u then (u : Int) - 2 ^ 32 else (u : Int)

/-- Mirrors the reader's `convert24BitToFloat` sample decode:
`(src[2] << 16) | (src[1] << 8) | src[0]`, sign-extended
(`sample |= 0xFF000000` on `int32_t` is `- 2^24`). -/
def wavSignExtend24 (b0 b1 b2 : Nat) : Int :=
  let sample : Nat := b2 <<< 16 ||| b1 <<< 8 ||| b0
  if sample &&& 0x800000 ≠ 0 then (sample : Int) - 2 ^ 24 else (sample : Int)

/-- The fmt-chunk acceptance in `readHeader`: only `audioFormat` 1 (PCM) and
3 (IEEE float) pass ("only PCM/float supported"). -/
def wavReaderAcceptsFormat (audioFormat : Nat) : Bool :=
  audioFormat == 1 || audioFormat == 3

/-- Mirrors the dispatch in `WavFileReader::read` together with the
`convert*ToFloat` scalings: the branch depends only on `bitsPerSample_`
(24-bit `* 1/8388608`, 32-bit `* 1/2147483648` on the bytes reinterpreted as
`int32_t`, 16-bit `* 1/32768`); other depths are rejected ("Unsupported bit
depth").  The accepted `audioFormat` is not consulted anywhere in `read`. -/
def wavReadConvertSample (audioFormat bitsPerSample : Nat) (bytes : List Nat) :
    Option ℚ :=
  if bitsPerSample = 24 then
    some ((wavSignExtend24 (bytes.getD 0 0) (bytes.getD 1 0) (bytes.getD 2 0) : ℚ)
      * (1 / 8388608))
  else if bitsPerSample = 32 then
    some ((decodeInt32LE (bytes.getD 0 0) (bytes.getD 1 0) (bytes.getD 2 0)
      (bytes.getD 3 0) : ℚ) * (1 / 2147483648))
  else if bitsPerSample = 16 then
    some ((decodeInt16LE (bytes.getD 0 0) (bytes.getD 1 0) : ℚ) * (1 / 32768))
  else none

/-- Spec-side definition, following the spec's words "float passed through":
the IEEE 754 binary32 value of four little-endian bytes, for normal numbers
(sign, 8-bit biased exponent, 23-bit mantissa) — what a pass-through of an
`audio_format = 3` sample would have to produce. -/
def ieee754DecodeNormal (b0 b1 b2 b3 : Nat) : ℚ :=
  let bits : Nat := b0 + b1 * 256 + b2 * 65536 + b3 * 16777216
  let sign : Nat := bits / 2 ^ 31
  let exponent : Nat := bits / 2 ^ 23 % 2 ^ 8
  let mantissa : Nat := bits % 2 ^ 23
  (if sign = 1 then (-1 : ℚ) else 1) * ((2 ^ exponent : ℚ) / 2 ^ 127)
    * (1 + (mantissa : ℚ) / 2 ^ 23)


section RingArith

theorem availableRead_lt (C w r : Nat) (hw : w < C) (hr : r < C) :
    availableRead C w r < C := by
  unfold availableRead
  split <;> omega

theorem availableRead_le_sub_one (C w r : Nat) (hw : w < C) (hr : r < C) :
    availableRead C w r ≤ C - 1 := by
  have := availableRead_lt C w r hw hr
  omega

theorem availableRead_add_availableWrite (C w r : Nat) (hC : 0 < C)
    (hw : w < C) (hr : r < C) :
    availableRead C w r + availableWrite C w r + 1 = C := by
  have := availableRead_lt C w r hw hr
  unfold availableWrite
  omega

/-- The write index sits exactly `availableRead` slots past the read index. -/
theorem add_availableRead_mod (C w r : Nat) (hC : 0 < C) (hw : w < C) (hr : r < C) :
    (r + availableRead C w r) % C = w := by
  unfold availableRead
  split
  · rw [Nat.add_sub_cancel' (by omega)]
    exact Nat.mod_eq_of_lt hw
  · have h1 : r + (C - r + w) = C + w := by omega
    rw [h1, Nat.add_mod_left]
    exact Nat.mod_eq_of_lt hw

/-- Shifting the read index forward by `u < C` slots leaves exactly `u`
readable slots behind it. -/
theorem availableRead_shift (C r u : Nat) (hr : r < C) (hu : u < C) :
    availableRead C ((r + u) % C) r = u := by
  unfold availableRead
  rcases Nat.lt_or_ge (r + u) C with h | h
  · rw [Nat.mod_eq_of_lt h]
    split <;> omega
  · have h2 : (r + u) % C = r + u - C := by
      have : r + u - C < C := by omega
      conv_lhs => rw [show r + u = (r + u - C) + C by omega]
      rw [Nat.add_mod_right, Nat.mod_eq_of_lt this]
    rw [h2]
    split <;> omega

/-- Positions `(r + k) % C` are pairwise distinct while `k` stays below `C`. -/
theorem mod_add_inj (C r k₁ k₂ : Nat) (h₁ : k₁ < C) (h₂ : k₂ < C)
    (h : (r + k₁) % C = (r + k₂) % C) : k₁ = k₂ := by
  have hC : 0 < C := by omega
  have hmod : k₁ % C = k₂ % C := by
    have := Nat.ModEq.add_left_cancel' r (by simpa [Nat.ModEq] using h)
    simpa [Nat.ModEq] using this
  rwa [Nat.mod_eq_of_lt h₁, Nat.mod_eq_of_lt h₂] at hmod

/-- Advancing the read index by `t ≤ available_read` slots drops `t` readable
slots. -/
theorem availableRead_advance (C w r t : Nat) (hC : 0 < C) (hw : w < C) (hr : r < C)
    (htle : t ≤ availableRead C w r) :
    availableRead C w ((r + t) % C) = availableRead C w r - t := by
  have hused := availableRead_lt C w r hw hr
  have hr2 : (r + t) % C < C := Nat.mod_lt _ hC
  have hkey : ((r + t) % C + (availableRead C w r - t)) % C = w := by
    rw [Nat.mod_add_mod]
    have harg : r + t + (availableRead C w r - t) = r + availableRead C w r := by omega
    rw [harg]
    exact add_availableRead_mod C w r hC hw hr
  have hshift := availableRead_shift C ((r + t) % C) (availableRead C w r - t) hr2 (by omega)
  rw [hkey] at hshift
  exact hshift

end RingArith

section RingSpec

/-- Helper: `getD` through `take`. -/
theorem getD_take (l : List Nat) (n i d : Nat) (hi : i < n) (hl : i < l.length) :
    (l.take n).getD i d = l.getD i d := by
  have hlen : i < (l.take n).length := by simp; omega
  rw [List.getD_eq_getElem _ d hlen, List.getD_eq_getElem _ d hl, List.getElem_take]

/-- Helper: `getD` through `drop`. -/
theorem getD_drop (l : List Nat) (n i d : Nat) (hl : n + i < l.length) :
    (l.drop n).getD i d = l.getD (n + i) d := by
  have hlen : i < (l.drop n).length := by simp; omega
  rw [List.getD_eq_getElem _ d hlen, List.getD_eq_getElem _ d hl, List.getElem_drop]

/-- Unfolding `memcpyAt` at a covered position. -/
theorem memcpyAt_in (buf : Nat → Nat) (dst : Nat) (data : List Nat) (j : Nat)
    (h : dst ≤ j ∧ j < dst + data.length) :
    memcpyAt buf dst data j = data.getD (j - dst) 0 := by
  unfold memcpyAt
  exact if_pos h

/-- Unfolding `memcpyAt` at an uncovered position. -/
theorem memcpyAt_out (buf : Nat → Nat) (dst : Nat) (data : List Nat) (j : Nat)
    (h : ¬(dst ≤ j ∧ j < dst + data.length)) :
    memcpyAt buf dst data j = buf j := by
  unfold memcpyAt
  exact if_neg h

/-- The two-chunk copy of `ringWrite` viewed through circular addressing: the
byte `i` of the accepted data lands at position `(w + i) % C`. -/
theorem twoChunk_get (C w : Nat) (buf : Nat → Nat) (data : List Nat) (t : Nat)
    (hw : w < C) (ht : t ≤ data.length) (htC : t < C) (i : Nat) (hi : i < t) :
    (if min t (C - w) < t then
       memcpyAt (memcpyAt buf w (data.take (min t (C - w)))) 0
         ((data.take t).drop (min t (C - w)))
     else memcpyAt buf w (data.take (min t (C - w)))) ((w + i) % C)
      = data.getD i 0 := by
  set fc := min t (C - w) with hfc
  have hlen1 : (data.take fc).length = fc := by simp; omega
  have hlen2 : ((data.take t).drop fc).length = t - fc := by simp; omega
  rcases Nat.lt_or_ge i fc with hifc | hifc
  · -- first chunk: position w + i, below C
    have hpos : w + i < C := by omega
    have hmod : (w + i) % C = w + i := Nat.mod_eq_of_lt hpos
    have hbuf1 : memcpyAt buf w (List.take fc data) (w + i) = data.getD i 0 := by
      rw [memcpyAt_in _ _ _ _ (by rw [hlen1]; omega)]
      have harg : w + i - w = i := by omega
      rw [harg]
      exact getD_take data fc i 0 hifc (by omega)
    rw [hmod]
    split
    · -- the wrapped chunk covers [0, t - fc) which stays below w ≤ w + i
      rename_i hsplit
      have hfceq : fc = C - w := by omega
      rw [memcpyAt_out _ _ _ _ (by rw [hlen2]; omega)]
      exact hbuf1
    · exact hbuf1
  · -- wrapped chunk: position w + i - C
    have hfclt : fc < t := by omega
    have hfceq : fc = C - w := by omega
    have hge : w + i ≥ C := by omega
    have hlt2 : w + i - C < C := by omega
    have hmod : (w + i) % C = w + i - C := by
      conv_lhs => rw [show w + i = (w + i - C) + C by omega]
      rw [Nat.add_mod_right, Nat.mod_eq_of_lt hlt2]
    rw [if_pos hfclt, hmod]
    rw [memcpyAt_in _ _ _ _ (by rw [hlen2]; omega)]
    have harg : w + i - C - 0 = i - fc := by omega
    rw [harg, getD_drop _ fc (i - fc) 0 (by simp; omega)]
    have harg2 : fc + (i - fc) = i := by omega
    rw [harg2]
    exact getD_take data t i 0 hi (by omega)

/-- Positions not of the form `(w + i) % C`, `i < t`, are untouched by the
two-chunk copy. -/
theorem twoChunk_untouched (C w : Nat) (buf : Nat → Nat) (data : List Nat) (t : Nat)
    (hw : w < C) (ht : t ≤ data.length) (htC : t < C) (j : Nat) (hj : j < C)
    (hnot : ∀ i, i < t → j ≠ (w + i) % C) :
    (if min t (C - w) < t then
       memcpyAt (memcpyAt buf w (data.take (min t (C - w)))) 0
         ((data.take t).drop (min t (C - w)))
     else memcpyAt buf w (data.take (min t (C - w)))) j = buf j := by
  set fc := min t (C - w) with hfc
  have hlen1 : (data.take fc).length = fc := by simp; omega
  have hlen2 : ((data.take t).drop fc).length = t - fc := by simp; omega
  have h1 : ¬(w ≤ j ∧ j < w + (data.take fc).length) := by
    rw [hlen1]
    rintro ⟨hwj, hjlt⟩
    have hi : j - w < t := by omega
    refine hnot (j - w) hi ?_
    have harg : w + (j - w) = j := by omega
    rw [harg, Nat.mod_eq_of_lt hj]
  split
  · rename_i hsplit
    have hfceq : fc = C - w := by omega
    have h2 : ¬(0 ≤ j ∧ j < 0 + ((data.take t).drop fc).length) := by
      rw [hlen2]
      rintro ⟨-, hjlt⟩
      have hi : fc + j < t := by omega
      refine hnot (fc + j) hi ?_
      have harg : w + (fc + j) = C + j := by omega
      rw [harg, Nat.add_mod_left, Nat.mod_eq_of_lt hj]
    rw [memcpyAt_out _ _ _ _ h2, memcpyAt_out _ _ _ _ h1]
  · rw [memcpyAt_out _ _ _ _ h1]

end RingSpec

section RingOpSpec

/-- Length of the FIFO abstraction is `available_read`. -/
theorem ringContents_length (s : RingState) :
    (ringContents s).length = availableRead s.capacity s.writeIndex s.readIndex := by
  simp [ringContents]

/-- Element access in the FIFO abstraction. -/
theorem ringContents_getElem (s : RingState) (i : Nat) (h : i < (ringContents s).length) :
    (ringContents s)[i] = s.buf ((s.readIndex + i) % s.capacity) := by
  simp [ringContents]

/-- Full characterization of `ringWrite` on a well-formed state: it preserves
the capacity and read index, keeps the state well-formed, accepts exactly
`min size available_write` bytes, and appends those bytes to the FIFO
abstraction. -/
theorem ringWrite_spec (s : RingState) (data : List Nat) (hwf : RingWF s) :
    (ringWrite s data).1.capacity = s.capacity ∧
    (ringWrite s data).1.readIndex = s.readIndex ∧
    RingWF (ringWrite s data).1 ∧
    (ringWrite s data).2
      = min data.length (availableWrite s.capacity s.writeIndex s.readIndex) ∧
    ringContents (ringWrite s data).1
      = ringContents s ++ data.take (ringWrite s data).2 := by
  obtain ⟨hC, hw, hr⟩ := hwf
  by_cases h0 : data.length = 0
  · have hnil : data = [] := List.eq_nil_of_length_eq_zero h0
    subst hnil
    simp [ringWrite, RingWF, hC, hw, hr]
  by_cases ht0 : min data.length (availableWrite s.capacity s.writeIndex s.readIndex) = 0
  · simp only [ringWrite, if_neg h0, if_pos ht0]
    simp [RingWF, hC, hw, hr, ht0]
  -- main branch
  have hred : ringWrite s data =
      ({ s with
          buf :=
            (if min (min data.length (availableWrite s.capacity s.writeIndex s.readIndex))
                  (s.capacity - s.writeIndex)
                < min data.length (availableWrite s.capacity s.writeIndex s.readIndex) then
               memcpyAt
                 (memcpyAt s.buf s.writeIndex
                   (data.take (min (min data.length
                      (availableWrite s.capacity s.writeIndex s.readIndex))
                      (s.capacity - s.writeIndex)))) 0
                 ((data.take (min data.length
                      (availableWrite s.capacity s.writeIndex s.readIndex))).drop
                   (min (min data.length
                      (availableWrite s.capacity s.writeIndex s.readIndex))
                      (s.capacity - s.writeIndex)))
             else
               memcpyAt s.buf s.writeIndex
                 (data.take (min (min data.length
                    (availableWrite s.capacity s.writeIndex s.readIndex))
                    (s.capacity - s.writeIndex)))),
          writeIndex := (s.writeIndex
              + min data.length (availableWrite s.capacity s.writeIndex s.readIndex))
              % s.capacity },
        min data.length (availableWrite s.capacity s.writeIndex s.readIndex)) := by
    simp only [ringWrite, if_neg h0, if_neg ht0]
  rw [hred]
  set C := s.capacity with hCdef
  set w := s.writeIndex with hwdef
  set r := s.readIndex with hrdef
  set used := availableRead C w r with husdef
  set t := min data.length (availableWrite C w r) with htdef
  have husedlt : used < C := availableRead_lt C w r hw hr
  have htle : t ≤ availableWrite C w r := Nat.min_le_right _ _
  have htlen : t ≤ data.length := Nat.min_le_left _ _
  have havw : C - used - 1 = availableWrite C w r := rfl
  have htC : used + t ≤ C - 1 := by omega
  have hw2 : (w + t) % C < C := Nat.mod_lt _ hC
  refine ⟨rfl, rfl, ⟨hC, hw2, hr⟩, rfl, ?_⟩
  -- contents: new write index reads back as used + t slots
  have hkey : (w + t) % C = (r + (used + t)) % C := by
    conv_lhs => rw [← add_availableRead_mod C w r hC hw hr]
    rw [Nat.mod_add_mod, ← husdef, Nat.add_assoc]
  have havail2 : availableRead C ((w + t) % C) r = used + t := by
    rw [hkey]
    exact availableRead_shift C r (used + t) hr (by omega)
  have hlenc : (ringContents s).length = used := ringContents_length s
  have hlen2 : ∀ s2 : RingState, (ringContents s2).length
      = availableRead s2.capacity s2.writeIndex s2.readIndex := ringContents_length
  refine List.ext_getElem ?_ ?_
  · rw [hlen2]
    simp only [List.length_append, hlenc]
    show availableRead C ((w + t) % C) r = used + (data.take t).length
    rw [havail2]
    simp; omega
  · intro i h1 h2
    rw [hlen2] at h1
    replace h1 : i < used + t := by
      have : availableRead C ((w + t) % C) r = used + t := havail2
      exact this ▸ h1
    rw [ringContents_getElem _ i (by rw [hlen2]; show i < availableRead C ((w + t) % C) r; omega)]
    show (if min t (C - w) < t then
       memcpyAt (memcpyAt s.buf w (data.take (min t (C - w)))) 0
         ((data.take t).drop (min t (C - w)))
     else memcpyAt s.buf w (data.take (min t (C - w)))) ((r + i) % C)
      = (ringContents s ++ data.take t)[i]
    rcases Nat.lt_or_ge i used with hiu | hiu
    · -- old bytes are untouched
      have hnot : ∀ i2, i2 < t → (r + i) % C ≠ (w + i2) % C := by
        intro i2 hi2 heq
        have hmm : (w + i2) % C = (r + (used + i2)) % C := by
          conv_lhs => rw [← add_availableRead_mod C w r hC hw hr]
          rw [Nat.mod_add_mod, ← husdef, Nat.add_assoc]
        rw [hmm] at heq
        have := mod_add_inj C r i (used + i2) (by omega) (by omega) heq
        omega
      rw [twoChunk_untouched C w s.buf data t hw htlen (by omega) ((r + i) % C)
            (Nat.mod_lt _ hC) hnot]
      rw [List.getElem_append_left (by omega)]
      rw [ringContents_getElem s i (by omega)]
    · -- freshly written bytes
      have hpos : (r + i) % C = (w + (i - used)) % C := by
        have hmm : (w + (i - used)) % C = (r + (used + (i - used))) % C := by
          conv_lhs => rw [← add_availableRead_mod C w r hC hw hr]
          rw [Nat.mod_add_mod, ← husdef, Nat.add_assoc]
        rw [hmm]
        have harg : used + (i - used) = i := by omega
        rw [harg]
      rw [hpos, twoChunk_get C w s.buf data t hw htlen (by omega) (i - used) (by omega)]
      rw [List.getElem_append_right (by omega)]
      simp only [hlenc]
      rw [List.getD_eq_getElem _ 0 (by omega), List.getElem_take]

end RingOpSpec

/-- Full characterization of `ringRead` on a well-formed state: it preserves
the capacity and write index, keeps the state well-formed, returns exactly the
first `min n available_read` queued bytes, and removes them from the FIFO
abstraction. -/
theorem ringRead_spec (s : RingState) (n : Nat) (hwf : RingWF s) :
    (ringRead s n).1.capacity = s.capacity ∧
    (ringRead s n).1.writeIndex = s.writeIndex ∧
    RingWF (ringRead s n).1 ∧
    (ringRead s n).2 = (ringContents s).take n ∧
    ringContents (ringRead s n).1
      = (ringContents s).drop
          (min n (availableRead s.capacity s.writeIndex s.readIndex)) ∧
    (ringRead s n).2 ++ ringContents (ringRead s n).1 = ringContents s := by
  obtain ⟨hC, hw, hr⟩ := hwf
  by_cases h0 : n = 0
  · subst h0
    simp [ringRead, RingWF, hC, hw, hr]
  by_cases ht0 : min n (availableRead s.capacity s.writeIndex s.readIndex) = 0
  · have hus0 : availableRead s.capacity s.writeIndex s.readIndex = 0 := by omega
    have hcnil : ringContents s = [] :=
      List.eq_nil_of_length_eq_zero (by rw [ringContents_length, hus0])
    simp only [ringRead, if_neg h0, if_pos ht0]
    simp [RingWF, hC, hw, hr, hcnil, ht0]
  have hred : ringRead s n =
      ({ s with readIndex := (s.readIndex
            + min n (availableRead s.capacity s.writeIndex s.readIndex)) % s.capacity },
        (List.range (min (min n (availableRead s.capacity s.writeIndex s.readIndex))
            (s.capacity - s.readIndex))).map (fun i => s.buf (s.readIndex + i)) ++
        (List.range (min n (availableRead s.capacity s.writeIndex s.readIndex)
            - min (min n (availableRead s.capacity s.writeIndex s.readIndex))
              (s.capacity - s.readIndex))).map (fun i => s.buf i)) := by
    simp only [ringRead, if_neg h0, if_neg ht0]
  rw [hred]
  set C := s.capacity with hCdef
  set w := s.writeIndex with hwdef
  set r := s.readIndex with hrdef
  set used := availableRead C w r with husdef
  set t := min n used with htdef
  set fc := min t (C - r) with hfcdef
  have husedlt : used < C := availableRead_lt C w r hw hr
  have htle : t ≤ used := Nat.min_le_right _ _
  have hfct : fc ≤ t := Nat.min_le_left _ _
  have hr2 : (r + t) % C < C := Nat.mod_lt _ hC
  have hlenc : (ringContents s).length = used := ringContents_length s
  have hout : ((List.range fc).map (fun i => s.buf (r + i)) ++
      (List.range (t - fc)).map (fun i => s.buf i)) = (ringContents s).take t := by
    refine List.ext_getElem ?_ ?_
    · simp
      omega
    · intro i h1 h2
      rw [List.length_append, List.length_map, List.length_map,
        List.length_range, List.length_range] at h1
      have hit : i < t := by omega
      rw [List.getElem_take, ringContents_getElem s i (by omega)]
      rcases Nat.lt_or_ge i fc with hifc | hifc
      · rw [List.getElem_append_left (by simp; omega)]
        simp only [List.getElem_map, List.getElem_range]
        have : (r + i) % C = r + i := Nat.mod_eq_of_lt (by omega)
        rw [this]
      · have hfceq : fc = C - r := by omega
        rw [List.getElem_append_right (by simp; omega)]
        simp only [List.getElem_map, List.getElem_range, List.length_map, List.length_range]
        have hmod : (r + i) % C = r + i - C := by
          have hlt2 : r + i - C < C := by omega
          conv_lhs => rw [show r + i = (r + i - C) + C by omega]
          rw [Nat.add_mod_right, Nat.mod_eq_of_lt hlt2]
        rw [hmod]
        congr 1
        omega
  have hcontents2 : ringContents
      { s with readIndex := (r + t) % C } = (ringContents s).drop t := by
    have havail2 : availableRead C w ((r + t) % C) = used - t :=
      availableRead_advance C w r t hC hw hr (by omega)
    refine List.ext_getElem ?_ ?_
    · rw [ringContents_length]
      show availableRead C w ((r + t) % C) = ((ringContents s).drop t).length
      rw [havail2]
      simp
      omega
    · intro i h1 h2
      rw [ringContents_length] at h1
      replace h1 : i < used - t := by
        have heq : availableRead C w ((r + t) % C) = used - t := havail2
        exact heq ▸ h1
      rw [ringContents_getElem _ i (by
        rw [ringContents_length]
        show i < availableRead C w ((r + t) % C)
        omega)]
      rw [List.getElem_drop, ringContents_getElem s (t + i) (by omega)]
      show s.buf (((r + t) % C + i) % C) = s.buf ((r + (t + i)) % C)
      rw [Nat.mod_add_mod, Nat.add_assoc]
  have htaken : (ringContents s).take n = (ringContents s).take t := by
    rcases Nat.lt_or_ge n used with hnu | hnu
    · have : t = n := by omega
      rw [this]
    · have ht' : t = used := by omega
      rw [ht', List.take_of_length_le (by omega), List.take_of_length_le (by omega)]
  refine ⟨rfl, rfl, ⟨hC, hw, hr2⟩, ?_, ?_, ?_⟩
  · rw [hout, htaken]
  · rw [hcontents2]
  · rw [hout, hcontents2, List.take_append_drop]

section RingRunSpec

theorem runInv_init (capacity : Nat) (hC : 0 < capacity) :
    RunInv capacity (initRun capacity) := by
  refine ⟨⟨hC, hC, hC⟩, rfl, ?_⟩
  simp [initRun, mkRing, ringContents, availableRead]

theorem runInv_step (capacity : Nat) (rr : RingRun) (op : RingOp)
    (h : RunInv capacity rr) : RunInv capacity (runOp rr op) := by
  obtain ⟨hwf, hcap, htrace⟩ := h
  cases op with
  | write data =>
      obtain ⟨hc, hri, hwf2, hsnd, hcont⟩ := ringWrite_spec rr.st data hwf
      refine ⟨hwf2, by rw [runOp]; exact hc.trans hcap, ?_⟩
      show rr.readOut ++ ringContents (ringWrite rr.st data).1
        = rr.accepted ++ data.take (ringWrite rr.st data).2
      rw [hcont, ← List.append_assoc, htrace]
  | read n =>
      obtain ⟨hc, hwi, hwf2, hsnd, hcont, hsplit⟩ := ringRead_spec rr.st n hwf
      refine ⟨hwf2, by rw [runOp]; exact hc.trans hcap, ?_⟩
      show (rr.readOut ++ (ringRead rr.st n).2) ++ ringContents (ringRead rr.st n).1
        = rr.accepted
      rw [List.append_assoc, hsplit, htrace]

theorem runInv_foldl (capacity : Nat) (rr : RingRun) (ops : List RingOp)
    (h : RunInv capacity rr) : RunInv capacity (ops.foldl runOp rr) := by
  induction ops generalizing rr with
  | nil => exact h
  | cons op ops ih => exact ih (runOp rr op) (runInv_step capacity rr op h)

end RingRunSpec

/-- C1: for every sequence of `write(k_i)` and `read(k_j)` calls on a
`LockFreeRingBuffer` of positive constructed capacity `C`, after every
prefix of the sequence (i) the concatenation of the bytes returned by the
reads is exactly the prefix of that length of the concatenation of the
bytes accepted by the writes, (ii) `0 ≤ available_read ≤ C - 1`, and (iii)
`available_read + available_write + 1 = C`.  (A capacity-zero buffer is
excluded: the C++ `% m_capacity` would divide by zero.) -/
theorem C1_ring_fifo_and_invariants (capacity : Nat) (hC : 0 < capacity)
    (ops : List RingOp) (m : Nat) :
    (runOps capacity (ops.take m)).readOut
        = (runOps capacity (ops.take m)).accepted.take
            (runOps capacity (ops.take m)).readOut.length ∧
    availableRead capacity (runOps capacity (ops.take m)).st.writeIndex
        (runOps capacity (ops.take m)).st.readIndex ≤ capacity - 1 ∧
    availableRead capacity (runOps capacity (ops.take m)).st.writeIndex
        (runOps capacity (ops.take m)).st.readIndex
      + availableWrite capacity (runOps capacity (ops.take m)).st.writeIndex
          (runOps capacity (ops.take m)).st.readIndex + 1 = capacity := by
  have hinv : RunInv capacity (runOps capacity (ops.take m)) :=
    runInv_foldl capacity (initRun capacity) (ops.take m) (runInv_init capacity hC)
  obtain ⟨⟨hc0, hwlt, hrlt⟩, hcap, htrace⟩ := hinv
  set rr := runOps capacity (ops.take m) with hrr
  have hwlt2 : rr.st.writeIndex < capacity := by rw [← hcap]; exact hwlt
  have hrlt2 : rr.st.readIndex < capacity := by rw [← hcap]; exact hrlt
  refine ⟨?_, ?_, ?_⟩
  · conv_lhs => rw [← List.take_left rr.readOut (ringContents rr.st)]
    rw [htrace]
  · exact availableRead_le_sub_one capacity _ _ hwlt2 hrlt2
  · exact availableRead_add_availableWrite capacity _ _ hC hwlt2 hrlt2

/-- Witness for C1 at a concrete capacity and operation sequence. -/
theorem C1_ring_fifo_and_invariants_witness :
    0 < 8 ∧
    ((runOps 8 ([RingOp.write [1,2,3,4,5], RingOp.read 2, RingOp.write [6,7,8,9],
        RingOp.read 9].take 4)).readOut
      = (runOps 8 ([RingOp.write [1,2,3,4,5], RingOp.read 2, RingOp.write [6,7,8,9],
        RingOp.read 9].take 4)).accepted.take
          (runOps 8 ([RingOp.write [1,2,3,4,5], RingOp.read 2, RingOp.write [6,7,8,9],
            RingOp.read 9].take 4)).readOut.length ∧
      availableRead 8 (runOps 8 ([RingOp.write [1,2,3,4,5], RingOp.read 2,
          RingOp.write [6,7,8,9], RingOp.read 9].take 4)).st.writeIndex
        (runOps 8 ([RingOp.write [1,2,3,4,5], RingOp.read 2, RingOp.write [6,7,8,9],
          RingOp.read 9].take 4)).st.readIndex ≤ 8 - 1 ∧
      availableRead 8 (runOps 8 ([RingOp.write [1,2,3,4,5], RingOp.read 2,
          RingOp.write [6,7,8,9], RingOp.read 9].take 4)).st.writeIndex
        (runOps 8 ([RingOp.write [1,2,3,4,5], RingOp.read 2, RingOp.write [6,7,8,9],
          RingOp.read 9].take 4)).st.readIndex
      + availableWrite 8 (runOps 8 ([RingOp.write [1,2,3,4,5], RingOp.read 2,
          RingOp.write [6,7,8,9], RingOp.read 9].take 4)).st.writeIndex
          (runOps 8 ([RingOp.write [1,2,3,4,5], RingOp.read 2, RingOp.write [6,7,8,9],
            RingOp.read 9].take 4)).st.readIndex + 1 = 8) :=
  ⟨by decide, C1_ring_fifo_and_invariants 8 (by decide)
    [RingOp.write [1,2,3,4,5], RingOp.read 2, RingOp.write [6,7,8,9], RingOp.read 9] 4⟩

section WavWriterSpec

/-- Byte mask arithmetic: `v &&& 0xFF` extracts the low byte. -/
theorem nat_and_255 (v : Nat) : v &&& 255 = v % 256 := by
  have h := Nat.and_pow_two_sub_one_eq_mod v 8
  norm_num at h
  exact h

set_option maxHeartbeats 1600000 in
/-- C2: closing the WAV writer after appending `data` bytes patches the
32-bit RIFF size (`72 + data_size`, the file is 80 header bytes) and the
32-bit data size in place when both the data size and the computed RIFF size
fit in `2^32 - 1`; otherwise it rewrites the leading tag as `RF64`, stores
`0xFFFFFFFF` in both 32-bit size fields, and overwrites the reserved `JUNK`
chunk with a `ds64` chunk carrying the 64-bit RIFF size, data size, sample
count and table length 0.  In particular, closing after exactly `2^32` data
bytes yields an RF64 header whose `ds64` data size is `2^32`. -/
theorem C2_wav_update_header (sampleRate channels bitsPerSample : Nat) (data : List Nat)
    (hlen : 72 + data.length < 2 ^ 64) :
    ((data.length ≤ 2 ^ 32 - 1 ∧ 72 + data.length ≤ 2 ^ 32 - 1) →
      wavUpdateHeader (wavWriteData (wavWriteHeader sampleRate channels bitsPerSample) data)
        = fourCC "RIFF" ++ u32le (72 + data.length) ++ fourCC "WAVE" ++ fourCC "JUNK"
            ++ u32le DS64_CHUNK_SIZE ++ List.replicate DS64_CHUNK_SIZE 0
            ++ wavFmtChunk sampleRate channels bitsPerSample ++ fourCC "data"
            ++ u32le data.length ++ data) ∧
    (¬(data.length ≤ 2 ^ 32 - 1 ∧ 72 + data.length ≤ 2 ^ 32 - 1) →
      wavUpdateHeader (wavWriteData (wavWriteHeader sampleRate channels bitsPerSample) data)
        = fourCC "RF64" ++ u32le MAX_UINT32 ++ fourCC "WAVE" ++ fourCC "ds64"
            ++ u32le DS64_CHUNK_SIZE ++ u64le (72 + data.length) ++ u64le data.length
            ++ u64le (data.length / (channels * (bitsPerSample / 8))) ++ u32le 0
            ++ wavFmtChunk sampleRate channels bitsPerSample ++ fourCC "data"
            ++ u32le MAX_UINT32 ++ data) ∧
    (data.length = 2 ^ 32 →
      (wavUpdateHeader (wavWriteData
          (wavWriteHeader sampleRate channels bitsPerSample) data)).take 4
        = fourCC "RF64" ∧
      readLE (wavUpdateHeader (wavWriteData
          (wavWriteHeader sampleRate channels bitsPerSample) data)) 28 8 = 2 ^ 32) := by
  have hstruct : wavWriteData (wavWriteHeader sampleRate channels bitsPerSample) data =
      { file := (fourCC "RIFF" ++ u32le 0 ++ fourCC "WAVE" ++ fourCC "JUNK"
          ++ u32le DS64_CHUNK_SIZE ++ List.replicate DS64_CHUNK_SIZE 0
          ++ wavFmtChunk sampleRate channels bitsPerSample ++ fourCC "data" ++ u32le 0) ++ data,
        dataSize := (0 + data.length) % 2 ^ 64,
        blockAlign := channels * (bitsPerSample / 8),
        ds64ChunkPos := 12, ds64SizePos := 16, ds64DataPos := 20,
        dataSizePos := 76 } := by rfl
  have hds : (0 + data.length) % 2 ^ 64 = data.length := by
    rw [Nat.zero_add]
    exact Nat.mod_eq_of_lt (by omega)
  have hflen : ((fourCC "RIFF" ++ u32le 0 ++ fourCC "WAVE" ++ fourCC "JUNK"
      ++ u32le DS64_CHUNK_SIZE ++ List.replicate DS64_CHUNK_SIZE 0
      ++ wavFmtChunk sampleRate channels bitsPerSample ++ fourCC "data" ++ u32le 0)
        ++ data).length = 80 + data.length := by
    rw [List.length_append]
    norm_num [fourCC, u32le, u16le, wavFmtChunk, DS64_CHUNK_SIZE]
  have hsf : (if channels * (bitsPerSample / 8) > 0 then
        data.length / (channels * (bitsPerSample / 8)) else 0)
      = data.length / (channels * (bitsPerSample / 8)) := by
    split
    · rfl
    · rename_i h
      have hz : channels * (bitsPerSample / 8) = 0 := by omega
      rw [hz, Nat.div_zero]
  have hRIFF : (data.length ≤ 2 ^ 32 - 1 ∧ 72 + data.length ≤ 2 ^ 32 - 1) →
      wavUpdateHeader (wavWriteData (wavWriteHeader sampleRate channels bitsPerSample) data)
        = fourCC "RIFF" ++ u32le (72 + data.length) ++ fourCC "WAVE" ++ fourCC "JUNK"
            ++ u32le DS64_CHUNK_SIZE ++ List.replicate DS64_CHUNK_SIZE 0
            ++ wavFmtChunk sampleRate channels bitsPerSample ++ fourCC "data"
            ++ u32le data.length ++ data := by
    intro hfit
    rw [hstruct]
    simp only [wavUpdateHeader, hds]
    rw [hflen]
    rw [if_pos (by omega : 80 + data.length ≥ 8)]
    rw [if_neg (by simp only [MAX_UINT32]; omega)]
    have hr : 80 + data.length - 8 = 72 + data.length := by omega
    rw [hr]
    have hrm : (72 + data.length) % 2 ^ 32 = 72 + data.length := Nat.mod_eq_of_lt (by omega)
    have hdm : data.length % 2 ^ 32 = data.length := Nat.mod_eq_of_lt (by omega)
    rw [hrm, hdm]
    rfl
  have hRF : ¬(data.length ≤ 2 ^ 32 - 1 ∧ 72 + data.length ≤ 2 ^ 32 - 1) →
      wavUpdateHeader (wavWriteData (wavWriteHeader sampleRate channels bitsPerSample) data)
        = fourCC "RF64" ++ u32le MAX_UINT32 ++ fourCC "WAVE" ++ fourCC "ds64"
            ++ u32le DS64_CHUNK_SIZE ++ u64le (72 + data.length) ++ u64le data.length
            ++ u64le (data.length / (channels * (bitsPerSample / 8))) ++ u32le 0
            ++ wavFmtChunk sampleRate channels bitsPerSample ++ fourCC "data"
            ++ u32le MAX_UINT32 ++ data := by
    intro hnofit
    rw [hstruct]
    simp only [wavUpdateHeader, hds]
    rw [hflen]
    rw [if_pos (by omega : 80 + data.length ≥ 8)]
    rw [if_pos (by simp only [MAX_UINT32]; omega)]
    have hr : 80 + data.length - 8 = 72 + data.length := by omega
    rw [hr, hsf]
    have hrm : (72 + data.length) % 2 ^ 64 = 72 + data.length := Nat.mod_eq_of_lt (by omega)
    have hdm : data.length % 2 ^ 64 = data.length := Nat.mod_eq_of_lt (by omega)
    have hsm : data.length / (channels * (bitsPerSample / 8)) % 2 ^ 64
        = data.length / (channels * (bitsPerSample / 8)) :=
      Nat.mod_eq_of_lt (by
        have := Nat.div_le_self data.length (channels * (bitsPerSample / 8))
        omega)
    rw [hrm, hdm, hsm]
    rfl
  refine ⟨hRIFF, hRF, ?_⟩
  intro h32
  have hnofit : ¬(data.length ≤ 2 ^ 32 - 1 ∧ 72 + data.length ≤ 2 ^ 32 - 1) := by omega
  have heq := hRF hnofit
  rw [heq, h32]
  constructor
  · rfl
  · norm_num [readLE, fourCC, u32le, u64le, MAX_UINT32, DS64_CHUNK_SIZE,
      List.getD_append, List.getD_append_right, nat_and_255, Nat.shiftRight_eq_div_pow]

/-- Witness for C2 at a concrete format and a three-byte payload
(the in-range RIFF branch). -/
theorem C2_wav_update_header_witness :
    72 + ([1, 2, 3] : List Nat).length < 2 ^ 64 ∧
    (wavUpdateHeader (wavWriteData (wavWriteHeader 48000 84 24) [1, 2, 3])
      = fourCC "RIFF" ++ u32le (72 + ([1, 2, 3] : List Nat).length) ++ fourCC "WAVE"
          ++ fourCC "JUNK" ++ u32le DS64_CHUNK_SIZE ++ List.replicate DS64_CHUNK_SIZE 0
          ++ wavFmtChunk 48000 84 24 ++ fourCC "data"
          ++ u32le ([1, 2, 3] : List Nat).length ++ [1, 2, 3]) :=
  ⟨by decide, (C2_wav_update_header 48000 84 24 [1, 2, 3] (by decide)).1 (by decide)⟩

end WavWriterSpec

section UrbWatchdogSpec

/-- C3 counterexample: starting from a freshly initialized stream, the same
URB is reaped 50 consecutive times (`consecutiveSameUrbCount` reaches the
`STUCK_URB_THRESHOLD = 50`), yet no reset is triggered, the ring is not torn
down (`wasStreaming` stays set, so the next read does not re-initialize),
and even the diagnostic flag is still unset. -/
theorem C3_stuck_urb_counterexample :
    (runReaps streamingStartState (List.replicate 50 1)).1.consecutiveSameUrbCount = 50 ∧
    (runReaps streamingStartState (List.replicate 50 1)).2 = false ∧
    (runReaps streamingStartState (List.replicate 50 1)).1.wasStreaming = true ∧
    (runReaps streamingStartState (List.replicate 50 1)).1.stuckUrbDetected = false := by
  decide

/-- C3 (amended): reaching 50 consecutive same-URB reaps only arms the
diagnostic `m_stuckUrbDetected` flag (and only once a different URB is
finally reaped); the capture discards all URBs, tears down the ring and
requests re-initialization on the next read call exactly when, at a reap
attempt whose running count is a positive multiple of `CHECK_INTERVAL = 100`
and strictly greater than 100, the consecutive-same-URB count (including
this reap) is at least 80% of `CHECK_INTERVAL`. -/
theorem C3_stuck_urb_watchdog (st : UrbWatchdogState) (urb : Nat) :
    ((handleCompletedUrbWatchdog st urb).2 = true ↔
      ((st.reapAttemptCount + 1) % CHECK_INTERVAL = 0 ∧ st.reapAttemptCount + 1 > 100 ∧
        (if urb = st.lastReapedUrbAddress then st.consecutiveSameUrbCount + 1 else 1) ≥ 80)) ∧
    ((handleCompletedUrbWatchdog st urb).2 = true →
      (handleCompletedUrbWatchdog st urb).1 = resetStreamingStateW) ∧
    ((handleCompletedUrbWatchdog st urb).2 = false →
      (handleCompletedUrbWatchdog st urb).1.stuckUrbDetected
        = (st.stuckUrbDetected
            || decide (urb ≠ st.lastReapedUrbAddress ∧
                 st.consecutiveSameUrbCount ≥ STUCK_URB_THRESHOLD))) := by
  simp only [handleCompletedUrbWatchdog]
  by_cases hsame : urb = st.lastReapedUrbAddress
  case pos =>
    rw [if_pos hsame]
    split_ifs with h1 h2 <;>
      refine ⟨?_, ?_, ?_⟩ <;>
        try simp_all [CHECK_INTERVAL, STUCK_URB_THRESHOLD] <;> try omega
  case neg =>
    rw [if_neg hsame]
    split_ifs with h1 h2 <;>
      refine ⟨?_, ?_, ?_⟩ <;>
        try simp_all [CHECK_INTERVAL, STUCK_URB_THRESHOLD] <;> try omega

end UrbWatchdogSpec

section RecorderSpec

/-- Disjoint bit fields combine additively: `a ||| (b <<< n) = a + b <<< n`
when `a` fits in `n` bits. -/
theorem lor_shiftLeft_eq_add (a b n : Nat) (ha : a < 2 ^ n) :
    a ||| b <<< n = a + b <<< n := by
  apply Nat.eq_of_testBit_eq
  intro i
  rw [Nat.testBit_or, Nat.testBit_shiftLeft, Nat.shiftLeft_eq]
  rcases Nat.lt_or_ge i n with hin | hin
  · have h1 : decide (n ≤ i) = false := by simp; omega
    rw [h1, Bool.false_and, Bool.or_false]
    rw [Nat.testBit_to_div_mod, Nat.testBit_to_div_mod]
    have hsplit : b * 2 ^ n = b * 2 ^ (n - i) * 2 ^ i := by
      rw [Nat.mul_assoc, ← Nat.pow_add]
      congr 2
      omega
    rw [hsplit, Nat.add_mul_div_right _ _ (Nat.pos_pow_of_pos i (by norm_num))]
    have heven : b * 2 ^ (n - i) = 2 * (b * 2 ^ (n - i - 1)) := by
      rw [Nat.mul_comm 2 _, Nat.mul_assoc, ← Nat.pow_succ]
      congr 2
      omega
    rw [heven]
    congr 2
    rw [Nat.mul_comm 2 _, Nat.add_mul_mod_self_right]
  · have h1 : decide (n ≤ i) = true := by simp; omega
    rw [h1, Bool.true_and]
    have h2 : a.testBit i = false :=
      Nat.testBit_lt_two_pow (lt_of_lt_of_le ha (Nat.pow_le_pow_right (by norm_num) hin))
    rw [h2, Bool.false_or]
    rw [Nat.testBit_to_div_mod, Nat.testBit_to_div_mod]
    have hd : (a + b * 2 ^ n) / 2 ^ i = b / 2 ^ (i - n) := by
      have hpow : (2 : Nat) ^ i = 2 ^ n * 2 ^ (i - n) := by
        rw [← Nat.pow_add]
        congr 1
        omega
      rw [hpow, ← Nat.div_div_eq_div_mul]
      rw [Nat.add_mul_div_right _ _ (Nat.pos_pow_of_pos n (by norm_num))]
      rw [Nat.div_eq_of_lt ha, Nat.zero_add]
    rw [hd]

/-- The packed 24-bit word assembled by `extract24BitSample` is the byte sum. -/
theorem pack24_eq (b0 b1 b2 : Nat) (h0 : b0 < 256) (h1 : b1 < 256) :
    b0 ||| b1 <<< 8 ||| b2 <<< 16 = b0 + b1 * 256 + b2 * 65536 := by
  have e1 : b0 ||| b1 <<< 8 = b0 + b1 <<< 8 := lor_shiftLeft_eq_add b0 b1 8 (by omega)
  rw [e1]
  have hlt : b0 + b1 <<< 8 < 2 ^ 16 := by
    rw [Nat.shiftLeft_eq]
    have hp : (2 : Nat) ^ 8 = 256 := by norm_num
    rw [hp]
    omega
  rw [lor_shiftLeft_eq_add _ b2 16 hlt, Nat.shiftLeft_eq, Nat.shiftLeft_eq]

/-- Arithmetic characterization of `extract24BitSample` for byte inputs:
the sign-extended value, negative exactly when the top bit of `b2` is set. -/
theorem extract24_characterization (b0 b1 b2 : Nat)
    (h0 : b0 < 256) (h1 : b1 < 256) (h2 : b2 < 256) :
    extract24BitSample b0 b1 b2
      = ((b0 + b1 * 256 + b2 * 65536 : Nat) : Int)
        - (if 128 ≤ b2 then 2 ^ 24 else 0) := by
  unfold extract24BitSample
  rw [pack24_eq b0 b1 b2 h0 h1]
  set n := b0 + b1 * 256 + b2 * 65536 with hn
  have hbit : n &&& 0x800000 ≠ 0 ↔ 128 ≤ b2 := by
    have hmask : n &&& 0x800000 = (n.testBit 23).toNat * 2 ^ 23 := by
      have := Nat.and_two_pow n 23
      norm_num at this ⊢
      exact this
    rw [hmask]
    rw [Nat.testBit_to_div_mod]
    have hdiv : n / 2 ^ 23 = b2 / 128 := by
      have hstep : n / 2 ^ 16 = b2 := by
        rw [hn]
        rw [show b0 + b1 * 256 + b2 * 65536 = (b0 + b1 * 256) + b2 * 2 ^ 16 by norm_num]
        rw [Nat.add_mul_div_right _ _ (by norm_num : 0 < (2 : Nat) ^ 16)]
        rw [Nat.div_eq_of_lt (by omega), Nat.zero_add]
      have hsplit : (2 : Nat) ^ 23 = 2 ^ 16 * 2 ^ 7 := by norm_num
      rw [hsplit, ← Nat.div_div_eq_div_mul, hstep]
      norm_num
    rw [hdiv]
    rcases Nat.lt_or_ge b2 128 with hb | hb
    · rw [Nat.div_eq_of_lt hb]
      simp
      omega
    · have : b2 / 128 = 1 := by omega
      rw [this]
      simp
      omega
  by_cases hb : 128 ≤ b2
  · rw [if_pos hb]
    show (if n &&& 0x800000 ≠ 0 then (n : Int) - 2 ^ 24 else (n : Int))
      = (n : Int) - 2 ^ 24
    rw [if_pos (hbit.mpr hb)]
  · rw [if_neg hb]
    show (if n &&& 0x800000 ≠ 0 then (n : Int) - 2 ^ 24 else (n : Int))
      = (n : Int) - 0
    rw [if_neg (fun hx => hb (hbit.mp hx))]
    norm_num

/-- Range of the sign-extended sample: always within `[-2^23, 2^23 - 1]`. -/
theorem extract24_range (b0 b1 b2 : Nat)
    (h0 : b0 < 256) (h1 : b1 < 256) (h2 : b2 < 256) :
    -(2 ^ 23) ≤ extract24BitSample b0 b1 b2 ∧
      extract24BitSample b0 b1 b2 ≤ 2 ^ 23 - 1 := by
  rw [extract24_characterization b0 b1 b2 h0 h1 h2]
  split <;> rename_i hb
  · constructor <;>
      · push_cast
        omega
  · constructor <;>
      · push_cast
        omega

/-- Requantizing the sign-extended value restores the original bytes. -/
theorem int24Bytes_extract24 (b0 b1 b2 : Nat)
    (h0 : b0 < 256) (h1 : b1 < 256) (h2 : b2 < 256) :
    int24Bytes (extract24BitSample b0 b1 b2) = (b0, b1, b2) := by
  rw [extract24_characterization b0 b1 b2 h0 h1 h2]
  unfold int24Bytes
  have hmod : (((b0 + b1 * 256 + b2 * 65536 : Nat) : Int)
      - (if 128 ≤ b2 then 2 ^ 24 else 0)) % 2 ^ 24
      = ((b0 + b1 * 256 + b2 * 65536 : Nat) : Int) := by
    split <;> rename_i hb <;> (push_cast; omega)
  rw [hmod]
  have htn : (((b0 + b1 * 256 + b2 * 65536 : Nat) : Int)).toNat
      = b0 + b1 * 256 + b2 * 65536 := Int.toNat_natCast _
  simp only [htn]
  refine Prod.ext ?_ (Prod.ext ?_ ?_)
  all_goals simp only []
  · omega
  · omega
  · omega

end RecorderSpec

section RecorderThreadSpec

/-- The gain pass never changes the number of samples processed short. -/
theorem processSamples_length (gain : ℚ) (n : Nat) (l : List Nat) :
    (processSamples gain n l).1.length = l.length := by
  induction n generalizing l with
  | zero => rfl
  | succ n ih =>
      match l with
      | [] => rfl
      | [b0] => rfl
      | [b0, b1] => rfl
      | b0 :: b1 :: b2 :: rest =>
          simp [processSamples, ih]

/-- The gain pass preserves the staging buffer length. -/
theorem processAudioBuffer_length (gain : ℚ) (buffer : List Nat) :
    (processAudioBuffer gain buffer).1.length = buffer.length := by
  unfold processAudioBuffer
  exact processSamples_length ..

/-- A ring write never accepts more than it was offered. -/
theorem ringWrite_snd_le (s : RingState) (data : List Nat) :
    (ringWrite s data).2 ≤ data.length := by
  simp only [ringWrite]
  split
  · simp
  · split
    · simp
    · exact Nat.min_le_left _ _

/-- Invariant of the recording loop, preserved by every iteration. -/
theorem recorderStep_invariant (gain : ℚ) (chunks : List (List Nat)) (st : RecState)
    (halign : ∀ c ∈ chunks, c.length % (CHANNEL_COUNT * BYTES_PER_SAMPLE) = 0)
    (h1 : st.totalSamples * (CHANNEL_COUNT * BYTES_PER_SAMPLE) = st.ringOffered)
    (h2 : st.bufferOverflows = 0 → st.ringOffered = st.ringAccepted) :
    (chunks.foldl (recorderStep gain) st).totalSamples
        * (CHANNEL_COUNT * BYTES_PER_SAMPLE)
      = (chunks.foldl (recorderStep gain) st).ringOffered ∧
    ((chunks.foldl (recorderStep gain) st).bufferOverflows = 0 →
      (chunks.foldl (recorderStep gain) st).ringOffered
        = (chunks.foldl (recorderStep gain) st).ringAccepted) := by
  induction chunks generalizing st with
  | nil => exact ⟨h1, h2⟩
  | cons c cs ih =>
      have hc := halign c (List.mem_cons_self c cs)
      have hcs : ∀ x ∈ cs, x.length % (CHANNEL_COUNT * BYTES_PER_SAMPLE) = 0 :=
        fun x hx => halign x (List.mem_cons_of_mem c hx)
      refine ih (recorderStep gain st c) hcs ?_ ?_
      · unfold recorderStep
        split
        · have hsam : c.length / (CHANNEL_COUNT * BYTES_PER_SAMPLE)
              * (CHANNEL_COUNT * BYTES_PER_SAMPLE) = c.length :=
            Nat.div_mul_cancel (Nat.dvd_of_mod_eq_zero hc)
          simp only []
          rw [Nat.add_mul, h1, hsam]
        · exact h1
      · unfold recorderStep
        split
        · rename_i hpos
          simp only []
          intro hover
          have hle : (ringWrite st.ring (processAudioBuffer gain c).1).2 ≤ c.length := by
            have := ringWrite_snd_le st.ring (processAudioBuffer gain c).1
            rw [processAudioBuffer_length] at this
            exact this
          split at hover
          · omega
          · rename_i hnotshort
            have heq : (ringWrite st.ring (processAudioBuffer gain c).1).2 = c.length := by
              omega
            rw [h2 hover, heq]
        · exact h2

/-- C4: over any recording session (every USB read handed to the loop is
frame-aligned, as `readAudioData` guarantees by construction), the
`m_totalSamples` counter times the frame size `84 × 3` equals the total
number of bytes the loop pushed into the disk ring — the counter is bumped
in the same iteration that pushes exactly those bytes — and when no ring
overflow was counted, that is also exactly the number of bytes the ring
accepted. -/
theorem C4_total_samples_accounting (gain : ℚ) (chunks : List (List Nat))
    (halign : ∀ c ∈ chunks, c.length % (CHANNEL_COUNT * BYTES_PER_SAMPLE) = 0) :
    (chunks.foldl (recorderStep gain) initRecState).totalSamples
        * (CHANNEL_COUNT * BYTES_PER_SAMPLE)
      = (chunks.foldl (recorderStep gain) initRecState).ringOffered ∧
    ((chunks.foldl (recorderStep gain) initRecState).bufferOverflows = 0 →
      (chunks.foldl (recorderStep gain) initRecState).ringOffered
        = (chunks.foldl (recorderStep gain) initRecState).ringAccepted) :=
  recorderStep_invariant gain chunks initRecState halign rfl (fun _ => rfl)

/-- Witness for C4 on a concrete session (one empty USB read). -/
theorem C4_total_samples_accounting_witness :
    (∀ c ∈ [([] : List Nat)], c.length % (CHANNEL_COUNT * BYTES_PER_SAMPLE) = 0) ∧
    (([([] : List Nat)].foldl (recorderStep 1) initRecState).totalSamples
        * (CHANNEL_COUNT * BYTES_PER_SAMPLE)
      = ([([] : List Nat)].foldl (recorderStep 1) initRecState).ringOffered ∧
    (([([] : List Nat)].foldl (recorderStep 1) initRecState).bufferOverflows = 0 →
      ([([] : List Nat)].foldl (recorderStep 1) initRecState).ringOffered
        = ([([] : List Nat)].foldl (recorderStep 1) initRecState).ringAccepted)) :=
  ⟨by decide, C4_total_samples_accounting 1 [[]] (by decide)⟩

/-- C8: calling `startRecording` while the recorder is not monitoring is
rejected: it returns `false` and every piece of recorder state is unchanged
(no WAV writer, no ring buffer, no disk thread, flags and counters keep
their prior values). -/
theorem C8_start_recording_requires_monitoring (st : RecorderCtl) (openSucceeds : Bool)
    (h : st.isMonitoring = false) :
    startRecording st openSucceeds = (st, false) := by
  unfold startRecording
  rw [h]
  simp

/-- Witness for C8 at a concrete idle state. -/
theorem C8_start_recording_requires_monitoring_witness :
    (RecorderCtl.mk false false false false false 0).isMonitoring = false ∧
    startRecording (RecorderCtl.mk false false false false false 0) true
      = (RecorderCtl.mk false false false false false 0, false) :=
  ⟨rfl, C8_start_recording_requires_monitoring
    (RecorderCtl.mk false false false false false 0) true rfl⟩

/-- At unity gain, a sample that did not saturate is written back verbatim
(the write-back branch is skipped). -/
theorem processSample_unity (b0 b1 b2 : Nat)
    (h : (processSample 1 b0 b1 b2).2 = false) :
    processSample 1 b0 b1 b2 = ((b0, b1, b2), false) := by
  have hc : (decide ((extract24BitSample b0 b1 b2 : ℚ) * 1 ≥ 8388607)
      || decide ((extract24BitSample b0 b1 b2 : ℚ) * 1 ≤ -8388608)) = false := by
    simp only [processSample] at h
    split at h
    · exact h
    · exact h
  simp only [processSample]
  rw [if_neg (by
    rw [hc]
    simp)]
  rw [hc]

/-- Unity-gain pass over a prefix of samples with no saturation: identity. -/
theorem processSamples_unity (n : Nat) (l : List Nat)
    (h : (processSamples 1 n l).2 = false) :
    (processSamples 1 n l).1 = l := by
  induction n generalizing l with
  | zero => rfl
  | succ n ih =>
      match l with
      | [] => rfl
      | [b0] => rfl
      | [b0, b1] => rfl
      | b0 :: b1 :: b2 :: rest =>
          simp only [processSamples, Bool.or_eq_false_iff] at h
          have h1 := processSample_unity b0 b1 b2 h.1
          simp only [processSamples, h1, ih rest h.2]

/-- C10: whenever the current linear gain is exactly 1 and no sample of the
block saturates the 24-bit bounds (the clip flag comes back unset), the
gain/meter pass leaves the staging buffer bytes unchanged — the 24-bit
requantization write-back is skipped — so at unity gain captured audio
reaches the disk ring bit-exact. -/
theorem C10_unity_gain_bit_exact (buffer : List Nat)
    (hflag : (processAudioBuffer 1 buffer).2 = false) :
    (processAudioBuffer 1 buffer).1 = buffer := by
  unfold processAudioBuffer at hflag ⊢
  exact processSamples_unity _ buffer hflag

/-- Witness for C10 on a concrete buffer. -/
theorem C10_unity_gain_bit_exact_witness :
    (processAudioBuffer 1 [9, 8, 7]).2 = false ∧
    (processAudioBuffer 1 [9, 8, 7]).1 = [9, 8, 7] :=
  ⟨rfl, C10_unity_gain_bit_exact [9, 8, 7] rfl⟩

end RecorderThreadSpec

section GainPathSpec

/-- The clip flag of one sample is exactly the saturation test on the
post-gain product. -/
theorem processSample_snd (gain : ℚ) (b0 b1 b2 : Nat) :
    (processSample gain b0 b1 b2).2
      = (decide ((extract24BitSample b0 b1 b2 : ℚ) * gain ≥ 8388607)
        || decide ((extract24BitSample b0 b1 b2 : ℚ) * gain ≤ -8388608)) := by
  simp only [processSample]
  split <;> rfl

/-- Truncation toward zero is the identity on integers. -/
theorem ratTrunc_intCast (n : Int) : ratTrunc (n : ℚ) = n := by
  unfold ratTrunc
  split
  · exact Int.floor_intCast n
  · exact Int.ceil_intCast n

/-- The clamped-and-truncated value always lands in the signed 24-bit range. -/
theorem ratTrunc_stdClamp_range (p : ℚ) :
    -8388608 ≤ ratTrunc (stdClamp p (-8388608) 8388607) ∧
      ratTrunc (stdClamp p (-8388608) 8388607) ≤ 8388607 := by
  have hc : -8388608 ≤ stdClamp p (-8388608) 8388607 ∧
      stdClamp p (-8388608) 8388607 ≤ 8388607 := by
    unfold stdClamp
    split_ifs with hlo hhi
    · constructor <;> norm_num
    · constructor <;> norm_num
    · constructor <;> linarith
  set c := stdClamp p (-8388608) 8388607 with hcdef
  unfold ratTrunc
  split
  · rename_i hpos
    constructor
    · have : (0 : Int) ≤ ⌊c⌋ := Int.le_floor.mpr (by exact_mod_cast hpos)
      omega
    · have h1 : ⌊c⌋ ≤ ⌊(8388607 : ℚ)⌋ := Int.floor_le_floor hc.2
      have h2 : ⌊(8388607 : ℚ)⌋ = 8388607 := by
        rw [show (8388607 : ℚ) = ((8388607 : Int) : ℚ) by norm_num, Int.floor_intCast]
      omega
  · rename_i hneg
    constructor
    · have h1 : ⌈(-8388608 : ℚ)⌉ ≤ ⌈c⌉ := Int.ceil_le_ceil hc.1
      have h2 : ⌈(-8388608 : ℚ)⌉ = -8388608 := by
        rw [show (-8388608 : ℚ) = ((-8388608 : Int) : ℚ) by norm_num, Int.ceil_intCast]
      omega
    · have : ⌈c⌉ ≤ (0 : Int) := Int.ceil_le.mpr (by push_neg at hneg; exact_mod_cast hneg.le)
      omega

/-- The bytes written back are always the 24-bit LE requantization of the
clamped product (also when the write-back is skipped at unity gain, since
the stored bytes then already equal that requantization). -/
theorem processSample_fst (gain : ℚ) (b0 b1 b2 : Nat)
    (h0 : b0 < 256) (h1 : b1 < 256) (h2 : b2 < 256) :
    (processSample gain b0 b1 b2).1
      = int24Bytes (ratTrunc (stdClamp ((extract24BitSample b0 b1 b2 : ℚ) * gain)
          (-8388608) 8388607)) := by
  simp only [processSample]
  split
  · rfl
  · rename_i hcond
    push_neg at hcond
    obtain ⟨hg, hflag⟩ := hcond
    subst hg
    rw [ne_eq, Bool.not_eq_true, Bool.or_eq_false_iff] at hflag
    obtain ⟨hmax, hmin⟩ := hflag
    rw [decide_eq_false_iff_not] at hmax hmin
    rw [mul_one] at hmax hmin ⊢
    have hclamp : stdClamp ((extract24BitSample b0 b1 b2 : ℚ))
        (-8388608) 8388607 = (extract24BitSample b0 b1 b2 : ℚ) := by
      unfold stdClamp
      rw [if_neg (by intro hlt; exact hmin (le_of_lt hlt))]
      rw [if_neg (by intro hlt; exact hmax (le_of_lt hlt))]
    rw [hclamp, ratTrunc_intCast, int24Bytes_extract24 b0 b1 b2 h0 h1 h2]

/-- C7: `setGain` clamps the requested dB value to `[0, 64]` and stores
`10^(dB/20)` (hence a linear target in `[1, 10^{3.2}]`); and every processed
24-bit sample is sign-extended, multiplied by the current gain, the clip
flag raised exactly when the product saturates `[-2^23, 2^23 - 1]`, and the
position holds the clamped product requantized as 24-bit little-endian,
which always lies back in the signed 24-bit range. -/
theorem C7_gain_clamp_clip_requantize (gainDb gain : ℚ) (b0 b1 b2 : Nat)
    (h0 : b0 < 256) (h1 : b1 < 256) (h2 : b2 < 256) :
    (0 ≤ clampGainDb gainDb ∧ clampGainDb gainDb ≤ 64 ∧
      setGainTarget gainDb = (10 : ℝ) ^ ((clampGainDb gainDb : ℝ) / 20) ∧
      (1 : ℝ) ≤ setGainTarget gainDb ∧
      setGainTarget gainDb ≤ (10 : ℝ) ^ ((64 : ℝ) / 20)) ∧
    ((processSample gain b0 b1 b2).2 = true ↔
      ((extract24BitSample b0 b1 b2 : ℚ) * gain ≥ 8388607 ∨
        (extract24BitSample b0 b1 b2 : ℚ) * gain ≤ -8388608)) ∧
    ((processSample gain b0 b1 b2).1
      = int24Bytes (ratTrunc (stdClamp ((extract24BitSample b0 b1 b2 : ℚ) * gain)
          (-8388608) 8388607))) ∧
    (-8388608 ≤ ratTrunc (stdClamp ((extract24BitSample b0 b1 b2 : ℚ) * gain)
          (-8388608) 8388607) ∧
      ratTrunc (stdClamp ((extract24BitSample b0 b1 b2 : ℚ) * gain)
          (-8388608) 8388607) ≤ 8388607) := by
  refine ⟨⟨le_max_left 0 _, ?_, rfl, ?_, ?_⟩, ?_, ?_, ratTrunc_stdClamp_range _⟩
  · exact max_le (by norm_num) (min_le_left _ _)
  · unfold setGainTarget
    apply Real.one_le_rpow (by norm_num)
    positivity
  · unfold setGainTarget
    apply Real.rpow_le_rpow_of_exponent_le (by norm_num)
    have hle : (max 0 (min 64 gainDb) : ℚ) ≤ 64 := max_le (by norm_num) (min_le_left _ _)
    have hle2 : ((max 0 (min 64 gainDb) : ℚ) : ℝ) ≤ 64 := by exact_mod_cast hle
    push_cast at hle2 ⊢
    linarith
  · rw [processSample_snd]
    simp [Bool.or_eq_true, decide_eq_true_eq]
  · exact processSample_fst gain b0 b1 b2 h0 h1 h2

/-- Witness for C7 at a concrete gain and byte triple. -/
theorem C7_gain_clamp_clip_requantize_witness :
    (3 : Nat) < 256 ∧ (5 : Nat) < 256 ∧ (250 : Nat) < 256 ∧
    ((0 ≤ clampGainDb 20 ∧ clampGainDb 20 ≤ 64 ∧
      setGainTarget 20 = (10 : ℝ) ^ ((clampGainDb 20 : ℝ) / 20) ∧
      (1 : ℝ) ≤ setGainTarget 20 ∧
      setGainTarget 20 ≤ (10 : ℝ) ^ ((64 : ℝ) / 20)) ∧
    ((processSample 2 3 5 250).2 = true ↔
      ((extract24BitSample 3 5 250 : ℚ) * 2 ≥ 8388607 ∨
        (extract24BitSample 3 5 250 : ℚ) * 2 ≤ -8388608)) ∧
    ((processSample 2 3 5 250).1
      = int24Bytes (ratTrunc (stdClamp ((extract24BitSample 3 5 250 : ℚ) * 2)
          (-8388608) 8388607))) ∧
    (-8388608 ≤ ratTrunc (stdClamp ((extract24BitSample 3 5 250 : ℚ) * 2)
          (-8388608) 8388607) ∧
      ratTrunc (stdClamp ((extract24BitSample 3 5 250 : ℚ) * 2)
          (-8388608) 8388607) ≤ 8388607)) :=
  ⟨by decide, by decide, by decide,
    C7_gain_clamp_clip_requantize 20 2 3 5 250 (by decide) (by decide) (by decide)⟩

end GainPathSpec

section ConvolverSpec

/-- The bit trick of `FftEngine::isPowerOfTwo` recognizes exactly the powers
of two. -/
theorem isPowerOfTwo_iff (n : Nat) : isPowerOfTwo n = true ↔ ∃ k, n = 2 ^ k := by
  unfold isPowerOfTwo
  rw [Bool.and_eq_true, bne_iff_ne, beq_iff_eq]
  constructor
  · rintro ⟨hne, hand⟩
    refine ⟨n.size - 1, ?_⟩
    by_contra hne2
    have hpos : 0 < n := Nat.pos_of_ne_zero hne
    have hsz : 0 < n.size := Nat.size_pos.mpr hpos
    have hlow : 2 ^ (n.size - 1) ≤ n := Nat.lt_size.mp (by omega)
    have hhigh : n < 2 ^ n.size := Nat.lt_size_self n
    have hgt : 2 ^ (n.size - 1) < n := lt_of_le_of_ne hlow (fun h => hne2 h.symm)
    have hdouble : 2 ^ (n.size - 1) * 2 = 2 ^ n.size := by
      rw [← Nat.pow_succ]
      congr 1
      omega
    have hb1 : n.testBit (n.size - 1) = true := by
      rw [Nat.testBit_to_div_mod]
      have hd : n / 2 ^ (n.size - 1) = 1 :=
        Nat.div_eq_of_lt_le (by omega) (by omega)
      rw [hd]
      decide
    have hb2 : (n - 1).testBit (n.size - 1) = true := by
      rw [Nat.testBit_to_div_mod]
      have hd : (n - 1) / 2 ^ (n.size - 1) = 1 :=
        Nat.div_eq_of_lt_le (by omega) (by omega)
      rw [hd]
      decide
    have := congrArg (fun x => x.testBit (n.size - 1)) hand
    simp only [Nat.testBit_and, Nat.zero_testBit, hb1, hb2, Bool.and_true] at this
    exact Bool.noConfusion this
  · rintro ⟨k, rfl⟩
    refine ⟨by positivity, ?_⟩
    apply Nat.eq_of_testBit_eq
    intro i
    rw [Nat.testBit_and, Nat.zero_testBit, Nat.testBit_two_pow,
      Nat.testBit_two_pow_sub_one]
    simp only [Bool.and_eq_false_iff, decide_eq_false_iff_not]
    omega

/-- Ceiling division of positive ints: `(a + b - 1) / b` is `⌈a / b⌉`. -/
theorem int_add_sub_one_div_eq_ceil (a b : Int) (ha : 0 < a) (hb : 0 < b) :
    (a + b - 1) / b = ⌈(a : ℚ) / (b : ℚ)⌉ := by
  symm
  rw [Int.ceil_eq_iff]
  set q := (a + b - 1) / b with hq
  have hdm : b * q + (a + b - 1) % b = a + b - 1 := Int.ediv_add_emod (a + b - 1) b
  have hr0 : 0 ≤ (a + b - 1) % b := Int.emod_nonneg _ (by omega)
  have hrb : (a + b - 1) % b < b := Int.emod_lt_of_pos _ hb
  have hbq : (0 : ℚ) < (b : ℚ) := by exact_mod_cast hb
  constructor
  · rw [lt_div_iff₀ hbq]
    have hlt : (q - 1) * b < a := by nlinarith [hdm, hr0, hrb]
    exact_mod_cast hlt
  · rw [div_le_iff₀ hbq]
    have hle : a ≤ q * b := by nlinarith [hdm, hr0, hrb]
    exact_mod_cast hle

/-- A positive numerator and divisor make the ceiling-division expression
positive. -/
theorem ceil_div_expr_pos (a b : Int) (ha : 0 < a) (hb : 0 < b) :
    0 < (a + b - 1) / b := by
  have hdm : b * ((a + b - 1) / b) + (a + b - 1) % b = a + b - 1 :=
    Int.ediv_add_emod (a + b - 1) b
  have hr0 : 0 ≤ (a + b - 1) % b := Int.emod_nonneg _ (by omega)
  have hrb : (a + b - 1) % b < b := Int.emod_lt_of_pos _ hb
  by_contra hq
  push_neg at hq
  have hmul : b * ((a + b - 1) / b) ≤ 0 :=
    mul_nonpos_iff.mpr (Or.inl ⟨hb.le, hq⟩)
  linarith

/-- A positive int that the bit trick accepts after `toNat` is an integer
power of two, and conversely. -/
theorem isPowerOfTwo_toNat_iff (b : Int) (hb : 0 < b) :
    isPowerOfTwo b.toNat = true ↔ ∃ k : Nat, b = 2 ^ k := by
  rw [isPowerOfTwo_iff]
  constructor
  · rintro ⟨k, hk⟩
    refine ⟨k, ?_⟩
    have hcast := congrArg (fun m : Nat => (m : Int)) hk
    simp only [Int.toNat_of_nonneg hb.le] at hcast
    rw [hcast]
    push_cast
    ring
  · rintro ⟨k, hk⟩
    refine ⟨k, ?_⟩
    rw [hk, show ((2 : Int) ^ k) = ((2 ^ k : Nat) : Int) by push_cast; ring]
    exact Int.toNat_natCast _

/-- Success condition of `MatrixConvolver::configure`. -/
theorem configure_ready_iff (ir : MatrixImpulseResponse) (blockSizeFrames : Int) :
    (MatrixConvolver_configure (some ir) blockSizeFrames).ready = true ↔
      (ir.isValid ∧ 0 < blockSizeFrames ∧ ∃ k : Nat, blockSizeFrames = 2 ^ k) := by
  by_cases hbad : ¬ ir.isValid ∨ blockSizeFrames ≤ 0
  · simp only [MatrixConvolver_configure, if_pos hbad, Bool.false_eq_true, false_iff]
    rintro ⟨hv, hbs, -⟩
    rcases hbad with hnv | hle
    · exact hnv hv
    · omega
  · have hbad2 := hbad
    push_neg at hbad2
    obtain ⟨hv, hbs⟩ := hbad2
    have hout : ¬ ir.numOutputChannels ≤ 0 := by
      have := hv.2.2.2.1
      omega
    by_cases hpow : isPowerOfTwo blockSizeFrames.toNat = true
    · have hnp : ¬ ((ir.irLength + blockSizeFrames - 1) / blockSizeFrames ≤ 0) := by
        have := ceil_div_expr_pos ir.irLength blockSizeFrames hv.2.1 hbs
        omega
      simp only [MatrixConvolver_configure, if_neg hbad, if_neg hout,
        if_neg (not_not_intro hpow), if_neg hnp]
      exact ⟨fun _ => ⟨hv, hbs, (isPowerOfTwo_toNat_iff blockSizeFrames hbs).mp hpow⟩,
        fun _ => trivial⟩
    · simp only [MatrixConvolver_configure, if_neg hbad, if_neg hout, if_pos hpow,
        Bool.false_eq_true, false_iff]
      rintro ⟨-, -, k, hk⟩
      exact hpow ((isPowerOfTwo_toNat_iff blockSizeFrames hbs).mpr ⟨k, hk⟩)

/-- Derived parameters of a successful `configure`. -/
theorem configure_success_params (ir : MatrixImpulseResponse) (blockSizeFrames : Int)
    (h : (MatrixConvolver_configure (some ir) blockSizeFrames).ready = true) :
    (MatrixConvolver_configure (some ir) blockSizeFrames).fftSize
        = 2 * blockSizeFrames ∧
    (MatrixConvolver_configure (some ir) blockSizeFrames).numPartitions
        = (ir.irLength + blockSizeFrames - 1) / blockSizeFrames := by
  obtain ⟨hv, hbs, hex⟩ := (configure_ready_iff ir blockSizeFrames).mp h
  have hbad : ¬ (¬ ir.isValid ∨ blockSizeFrames ≤ 0) := by
    push_neg
    exact ⟨hv, hbs⟩
  have hout : ¬ ir.numOutputChannels ≤ 0 := by
    have := hv.2.2.2.1
    omega
  have hpow : isPowerOfTwo blockSizeFrames.toNat = true :=
    (isPowerOfTwo_toNat_iff blockSizeFrames hbs).mpr hex
  have hnp : ¬ ((ir.irLength + blockSizeFrames - 1) / blockSizeFrames ≤ 0) := by
    have := ceil_div_expr_pos ir.irLength blockSizeFrames hv.2.1 hbs
    omega
  simp only [MatrixConvolver_configure, if_neg hbad, if_neg hout,
    if_neg (not_not_intro hpow), if_neg hnp]
  exact ⟨mul_comm _ _, trivial⟩

end ConvolverSpec

/-- C5: `MatrixConvolver::configure(ir, block_size)` succeeds exactly when
the impulse response satisfies its validity predicate and the block size is
a positive power of two (otherwise it returns false with the convolver not
ready), and on success it derives `fft_size = 2 × block_size` and
`num_partitions = ⌈ir_length / block_size⌉`. -/
theorem C5_convolver_configure (ir : MatrixImpulseResponse) (blockSizeFrames : Int) :
    ((MatrixConvolver_configure (some ir) blockSizeFrames).ready = true ↔
      (ir.isValid ∧ 0 < blockSizeFrames ∧ ∃ k : Nat, blockSizeFrames = 2 ^ k)) ∧
    ((MatrixConvolver_configure (some ir) blockSizeFrames).ready = true →
      (MatrixConvolver_configure (some ir) blockSizeFrames).fftSize
          = 2 * blockSizeFrames ∧
      (MatrixConvolver_configure (some ir) blockSizeFrames).numPartitions
          = ⌈(ir.irLength : ℚ) / (blockSizeFrames : ℚ)⌉) := by
  refine ⟨configure_ready_iff ir blockSizeFrames, fun h => ?_⟩
  obtain ⟨hfft, hnp⟩ := configure_success_params ir blockSizeFrames h
  obtain ⟨hv, hbs, -⟩ := (configure_ready_iff ir blockSizeFrames).mp h
  exact ⟨hfft, hnp.trans (int_add_sub_one_div_eq_ceil ir.irLength blockSizeFrames
    hv.2.1 hbs)⟩

/-- Witness for C5 at a concrete valid impulse response and block size. -/
theorem C5_convolver_configure_witness :
    ((MatrixConvolver_configure (some (MatrixImpulseResponse.mk 48000 2 1 1 [0, 0]))
        8).ready = true ↔
      ((MatrixImpulseResponse.mk 48000 2 1 1 [0, 0]).isValid ∧ (0 : Int) < 8 ∧
        ∃ k : Nat, (8 : Int) = 2 ^ k)) ∧
    ((MatrixConvolver_configure (some (MatrixImpulseResponse.mk 48000 2 1 1 [0, 0]))
        8).ready = true →
      (MatrixConvolver_configure (some (MatrixImpulseResponse.mk 48000 2 1 1 [0, 0]))
          8).fftSize = 2 * 8 ∧
      (MatrixConvolver_configure (some (MatrixImpulseResponse.mk 48000 2 1 1 [0, 0]))
          8).numPartitions
        = ⌈((MatrixImpulseResponse.mk 48000 2 1 1 [0, 0]).irLength : ℚ) / ((8 : Int) : ℚ)⌉) :=
  C5_convolver_configure (MatrixImpulseResponse.mk 48000 2 1 1 [0, 0]) 8

section PlaybackIrSpec

/-- `PlaybackEngine::loadImpulseResponse`'s trim step keeps the impulse
response valid and bounds its length by one partition. -/
theorem trimImpulseResponse_bounds (ir : MatrixImpulseResponse) (hv : ir.isValid) :
    (trimImpulseResponse ir).isValid ∧
    0 < (trimImpulseResponse ir).irLength ∧
    (trimImpulseResponse ir).irLength ≤ ((BUFFER_FRAMES : Nat) : Int) := by
  simp only [trimImpulseResponse, MatrixImpulseResponse.isValid]
  split_ifs with htrim
  · simp only [List.length_map, List.length_range]
    refine ⟨⟨hv.1, by norm_num [BUFFER_FRAMES, kMaxPartitions], hv.2.2.1,
        hv.2.2.2.1, trivial⟩,
      by norm_num [BUFFER_FRAMES, kMaxPartitions],
      by norm_num [BUFFER_FRAMES, kMaxPartitions]⟩
  · refine ⟨⟨hv.1, hv.2.1, hv.2.2.1, hv.2.2.2.1, hv.2.2.2.2⟩, hv.2.1, ?_⟩
    push_neg at htrim
    norm_num [BUFFER_FRAMES, kMaxPartitions] at htrim ⊢
    exact htrim

end PlaybackIrSpec

/-- C9: for every valid impulse response, the IR the engine hands to the
convolver is trimmed to at most `BUFFER_FRAMES = 4096` samples and stays
valid, the engine's `configure(ir, BUFFER_FRAMES)` call succeeds, and the
resulting partition count is exactly 1 regardless of the original IR
length. -/
theorem C9_ir_trim_single_partition (ir : MatrixImpulseResponse)
    (hv : ir.isValid) :
    (trimImpulseResponse ir).irLength ≤ ((BUFFER_FRAMES : Nat) : Int) ∧
    (trimImpulseResponse ir).isValid ∧
    (loadImpulseResponseConfigure ir).ready = true ∧
    (loadImpulseResponseConfigure ir).numPartitions = 1 := by
  obtain ⟨hval, hpos, hle⟩ := trimImpulseResponse_bounds ir hv
  have hready : (MatrixConvolver_configure (some (trimImpulseResponse ir))
      ((BUFFER_FRAMES : Nat) : Int)).ready = true := by
    rw [configure_ready_iff]
    exact ⟨hval, by norm_num [BUFFER_FRAMES], ⟨12, by norm_num [BUFFER_FRAMES]⟩⟩
  have hnp := (configure_success_params (trimImpulseResponse ir)
      ((BUFFER_FRAMES : Nat) : Int) hready).2
  refine ⟨hle, hval, ?_, ?_⟩
  · simp only [loadImpulseResponseConfigure]
    exact hready
  · simp only [loadImpulseResponseConfigure]
    rw [hnp]
    norm_num [BUFFER_FRAMES] at hle hpos ⊢
    omega

/-- Witness for C9 at a concrete one-sample impulse response. -/
theorem C9_ir_trim_single_partition_witness :
    (MatrixImpulseResponse.mk 48000 1 1 1 [0]).isValid ∧
    ((trimImpulseResponse (MatrixImpulseResponse.mk 48000 1 1 1 [0])).irLength
        ≤ ((BUFFER_FRAMES : Nat) : Int) ∧
      (trimImpulseResponse (MatrixImpulseResponse.mk 48000 1 1 1 [0])).isValid ∧
      (loadImpulseResponseConfigure
          (MatrixImpulseResponse.mk 48000 1 1 1 [0])).ready = true ∧
      (loadImpulseResponseConfigure
          (MatrixImpulseResponse.mk 48000 1 1 1 [0])).numPartitions = 1) :=
  ⟨by decide, C9_ir_trim_single_partition (MatrixImpulseResponse.mk 48000 1 1 1 [0])
    (by decide)⟩

/-- C6: the reader's integer scalings are as claimed (1/2^15, 1/2^23, 1/2^31
for 16-, 24- and 32-bit samples), and `readHeader` accepts `audio_format = 3`
(IEEE float); but `read` dispatches on bit depth alone and reinterprets a
32-bit float sample as int32 PCM, so the float sample with bytes
00 00 80 3F (IEEE 1.0) decodes to 1065353216/2^31 instead of being passed
through as 1. -/
theorem C6_float_sample_not_passed_through :
    (∀ b0 b1 : Nat, wavReadConvertSample 1 16 [b0, b1]
        = some ((decodeInt16LE b0 b1 : ℚ) * (1 / 2 ^ 15))) ∧
    (∀ b0 b1 b2 : Nat, wavReadConvertSample 1 24 [b0, b1, b2]
        = some ((wavSignExtend24 b0 b1 b2 : ℚ) * (1 / 2 ^ 23))) ∧
    (∀ b0 b1 b2 b3 : Nat, wavReadConvertSample 1 32 [b0, b1, b2, b3]
        = some ((decodeInt32LE b0 b1 b2 b3 : ℚ) * (1 / 2 ^ 31))) ∧
    wavReaderAcceptsFormat 3 = true ∧
    ieee754DecodeNormal 0 0 128 63 = 1 ∧
    wavReadConvertSample 3 32 [0, 0, 128, 63]
        = some ((1065353216 : ℚ) * (1 / 2 ^ 31)) ∧
    wavReadConvertSample 3 32 [0, 0, 128, 63]
        ≠ some (ieee754DecodeNormal 0 0 128 63) := by
  have hdec : ieee754DecodeNormal 0 0 128 63 = 1 := by
    norm_num [ieee754DecodeNormal]
  have hcode : wavReadConvertSample 3 32 [0, 0, 128, 63]
      = some ((1065353216 : ℚ) * (1 / 2 ^ 31)) := by
    simp only [wavReadConvertSample]
    norm_num [decodeInt32LE, List.getD_cons_zero, List.getD_cons_succ]
  refine ⟨?_, ?_, ?_, rfl, hdec, hcode, ?_⟩
  · intro b0 b1
    simp only [wavReadConvertSample]
    norm_num [List.getD_cons_zero, List.getD_cons_succ]
  · intro b0 b1 b2
    simp only [wavReadConvertSample]
    norm_num [List.getD_cons_zero, List.getD_cons_succ]
  · intro b0 b1 b2 b3
    simp only [wavReadConvertSample]
    norm_num [List.getD_cons_zero, List.getD_cons_succ]
  · rw [hcode, hdec]
    intro hcon
    rw [Option.some_inj] at hcon
    norm_num at hcon
